import Mathlib

/-! Fused-workload dependency analyzer.

A shallow embedding of `src/workload/fused-workload-dependency-analyzer.cpp`
(class `problem::FusedWorkloadDependencyAnalyzer`) and theorems about it.

* `std::vector` is a `List` (`emplace_back` appends at the end); the explicit
  DFS stack keeps its `back()` at the head of the list.
* `std::set` is a `List`; the theorems hold for every enumeration order, the
  concrete workloads below list their sets in ascending order without repeats.
* Calls that can fail (`.at`, an access relation that is not defined) return
  `Except Failure`; so do the two dereferences that C++ leaves undefined on an
  empty operand (`*begin()` of a set, `*` of an optional), where the execution
  has no defined continuation.
-/

namespace problem

abbrev EinsumId := Nat
abbrev DataSpaceId := Nat
abbrev DimensionId := Nat

/-- Failures a query of the analyzer can end in. -/
inductive Failure where
  /-- `std::map::at` on a key that is not present. -/
  | out_of_range
  /-- `Accesses(einsum, dspace)` for a pair where the einsum neither reads nor
  writes the data space. -/
  | undefined_access
  /-- Dereferencing `begin()` of an empty set. -/
  | empty_set
  /-- The `throw std::runtime_error("unreachable")` of `EquivalentDimensions`. -/
  | unreachable
  /-- Dereferencing an empty `std::optional`: the behaviour is undefined, no
  exception is thrown and nothing is reported to the caller. -/
  | empty_optional
  deriving DecidableEq, Repr

deriving instance DecidableEq for Except

/-- The operations of the affine relation library (isl) that the analyzer
calls, an external library taken as a parameter.  `M` is the type of
`isl::map`, `S` the type of `isl::set`. -/
structure Isl (M S : Type) where
  /-- `isl_map_identity(isl_space_map_from_set(isl_set_get_space(s)))`. -/
  map_identity : S → M
  /-- `a.apply_range(b)`. -/
  apply_range : M → M → M
  /-- `a.reverse()`. -/
  reverse : M → M
  /-- `isl_map_involves_dims(m, isl_dim_in, first, 1) == isl_bool_true`. -/
  involves_dims_in : M → Nat → Bool
  /-- `m.n_basic_map()`. -/
  n_basic_map : M → Nat
  /-- `isl_map_dim(m, isl_dim_out)`. -/
  dim_out : M → Nat
  /-- `isl_map_project_out(m, isl_dim_out, first, n)`. -/
  project_out : M → Nat → Nat → M
  /-- `isl_map_is_single_valued(m)` read as a C++ condition. -/
  is_single_valued : M → Bool
  /-- `isl_multi_pw_aff_size` of
  `isl_pw_multi_aff_to_multi_pw_aff(isl_pw_multi_aff_from_map(m))`. -/
  multi_pw_aff_size : M → Nat
  /-- `isl_pw_aff_n_piece` of component 0 of that multi-affine function. -/
  pw_aff_n_piece : M → Nat
  /-- The values `isl_aff_get_coefficient_val(p_aff, isl_dim_in, i)` of its
  single piece for `i = 0, ..., isl_aff_dim(p_aff, isl_dim_in) - 1`. -/
  aff_coefficients : M → List Int

/-- Modelled from the spec: the class `FusedWorkload` (the workload graph
accessor, spec section 6) is not among the sources.  The two tables of the
producer-consumer graph are finite maps, as every workload has finitely many
einsums and data spaces; the other accessors are functions of their key.
`M` is the type of `isl::map`, `S` the type of `isl::set`. -/
structure FusedWorkload (M S : Type) where
  /-- `EinsumIdToName()`: the einsums of the workload with their names, in key order. -/
  EinsumIdToName : List (EinsumId × String)
  /-- `TensorsReadByEinsum(einsum)`. -/
  TensorsReadByEinsum : EinsumId → List DataSpaceId
  /-- The table behind `TensorsWrittenByEinsum`. -/
  written_tensors : List (EinsumId × List DataSpaceId)
  /-- The table behind `ReaderEinsums`. -/
  reader_einsums : List (DataSpaceId × List EinsumId)
  /-- `WriterEinsum(dspace)`, a `std::optional<EinsumId>`. -/
  WriterEinsum : DataSpaceId → Option EinsumId
  /-- `EinsumOspaceDimensions(einsum)`. -/
  EinsumOspaceDimensions : EinsumId → List DimensionId
  /-- `EinsumOspaceBound(einsum)`. -/
  EinsumOspaceBound : EinsumId → S
  /-- `EinsumDimToIdx(einsum)`, looked up with `.at(dim)`. -/
  EinsumDimToIdx : EinsumId → DimensionId → Option Nat
  /-- `EinsumIdxToDim(einsum)`, looked up with `.at(idx)`. -/
  EinsumIdxToDim : EinsumId → Nat → Option DimensionId
  /-- The access relation stored for an (einsum, data space) pair. -/
  access_relation : EinsumId → DataSpaceId → M

variable {M S : Type}

/-- `TensorsWrittenByEinsum(einsum)`: the set stored for the einsum, empty when
none is stored. -/
def FusedWorkload.TensorsWrittenByEinsum (w : FusedWorkload M S) (einsum : EinsumId) :
    List DataSpaceId :=
  (w.written_tensors.lookup einsum).getD []

/-- `ReaderEinsums(dspace)`: the set stored for the data space, empty when none
is stored. -/
def FusedWorkload.ReaderEinsums (w : FusedWorkload M S) (dspace : DataSpaceId) :
    List EinsumId :=
  (w.reader_einsums.lookup dspace).getD []

/-- Modelled from the spec: `Accesses(stage, tensor)` "fails / undefined if
stage neither reads nor writes tensor". -/
def FusedWorkload.Accesses (w : FusedWorkload M S) (einsum : EinsumId) (dspace : DataSpaceId) :
    Except Failure M :=
  if dspace ∈ w.TensorsReadByEinsum einsum ∨ dspace ∈ w.TensorsWrittenByEinsum einsum then
    .ok (w.access_relation einsum dspace)
  else
    .error .undefined_access

/-! ## FindEinsumDependencyChain (lines 13-66) -/

/-- One `(node, path to node)` entry of `dfs_stack`. -/
abbrev StackEntry := EinsumId × List EinsumId

/-- The state of the search loop: `dfs_stack` (its `back()` first) and `result`. -/
abbrev SearchState := List StackEntry × List (List EinsumId)

/-- Body of the inner `for (neighbor_einsum : readers)` loop, lines 41-59. -/
def visitReader (dst : EinsumId) (cur_einsum_path : List EinsumId) (st : SearchState)
    (neighbor_einsum : EinsumId) : SearchState :=
  let path_to_neighbor := cur_einsum_path ++ [neighbor_einsum]
  if neighbor_einsum = dst then
    (st.1, st.2 ++ [path_to_neighbor])
  else if neighbor_einsum ∈ cur_einsum_path then
    st
  else
    ((neighbor_einsum, path_to_neighbor) :: st.1, st.2)

/-- The two nested `for` loops of one iteration of the `while`, lines 35-62,
run on the stack left after `pop_back`. -/
def visitEinsum (w : FusedWorkload M S) (dst cur_einsum : EinsumId)
    (cur_einsum_path : List EinsumId) (st : SearchState) : SearchState :=
  (w.TensorsWrittenByEinsum cur_einsum).foldl
    (fun st cur_einsum_output =>
      (w.ReaderEinsums cur_einsum_output).foldl (visitReader dst cur_einsum_path) st)
    st

/-- The first `n` iterations of `while (dfs_stack.size() > 0)`; the state no
longer changes once the stack is empty. -/
def searchLoop (w : FusedWorkload M S) (dst : EinsumId) : Nat → SearchState → SearchState
  | 0, st => st
  | _ + 1, ([], result) => ([], result)
  | n + 1, ((cur_einsum, cur_einsum_path) :: dfs_stack, result) =>
      searchLoop w dst n (visitEinsum w dst cur_einsum cur_einsum_path (dfs_stack, result))

/-- All reader entries of the workload, one per (data space, reader) pair. -/
def allReaders (w : FusedWorkload M S) : List EinsumId :=
  w.reader_einsums.flatMap Prod.snd

/-- A bound on the number of neighbours one iteration of the loop looks at. -/
def fanOut (w : FusedWorkload M S) : Nat :=
  (w.written_tensors.flatMap Prod.snd).length * (allReaders w).length

/-- A number of iterations after which the stack is empty
(see `searchLoop_stack_empty`). -/
def searchBound (w : FusedWorkload M S) : Nat :=
  (fanOut w + 1) ^ (allReaders w).length

/-- State before the loop, lines 21-28. -/
def searchInit (src dst : EinsumId) : SearchState :=
  ([(src, [src])], if src = dst then [[src]] else [])

/-- `FindEinsumDependencyChain(src, dst)`: the `result` once the loop has run
until the stack is empty. -/
def FindEinsumDependencyChain (w : FusedWorkload M S) (src dst : EinsumId) :
    List (List EinsumId) :=
  (searchLoop w dst (searchBound w) (searchInit src dst)).2

/-! ## Notions used to state and prove the properties of the search -/

/-- The einsums `FindEinsumDependencyChain` looks at from `cur_einsum`: the
readers of every tensor it writes, in enumeration order. -/
def neighbors (w : FusedWorkload M S) (cur_einsum : EinsumId) : List EinsumId :=
  (w.TensorsWrittenByEinsum cur_einsum).flatMap w.ReaderEinsums

/-- A producer-consumer edge: `a` writes a tensor that `b` reads. -/
def DependsOn (w : FusedWorkload M S) (a b : EinsumId) : Prop :=
  ∃ T, T ∈ w.TensorsWrittenByEinsum a ∧ b ∈ w.ReaderEinsums T

/-- Every consecutive pair of the chain is a producer-consumer edge. -/
def Linked (w : FusedWorkload M S) (chain : List EinsumId) : Prop :=
  ∀ i a b, chain[i]? = some a → chain[i + 1]? = some b → DependsOn w a b

/-- Entries pushed while visiting an einsum, topmost first. -/
def pushed (dst : EinsumId) (path : List EinsumId) (ns : List EinsumId) : List StackEntry :=
  ((ns.filter (fun n => decide (n ≠ dst ∧ n ∉ path))).map (fun n => (n, path ++ [n]))).reverse

/-- Chains recorded while visiting an einsum, in order. -/
def recorded (dst : EinsumId) (path : List EinsumId) (ns : List EinsumId) :
    List (List EinsumId) :=
  (ns.filter (fun n => decide (n = dst))).map (fun n => path ++ [n])

/-- Weight of a path: the readers of the workload that are not yet on it bound
how far it can still be extended. -/
def pathWeight (w : FusedWorkload M S) (p : List EinsumId) : Nat :=
  (fanOut w + 1) ^ ((allReaders w).filter (fun e => decide (e ∉ p))).length

/-- Weight of a stack: the loop lowers it in every iteration. -/
def stackWeight (w : FusedWorkload M S) (s : List StackEntry) : Nat :=
  (s.map (fun e => pathWeight w e.2)).sum

/-- The ways the search completes a stack entry `(cur, p)` into a recorded
chain: step to `dst`, or step to a neighbour that is neither `dst` nor on the
path and complete from there. -/
inductive Completes (w : FusedWorkload M S) (dst : EinsumId) :
    EinsumId → List EinsumId → List EinsumId → Prop where
  | hit (cur : EinsumId) (p : List EinsumId) :
      dst ∈ neighbors w cur → Completes w dst cur p (p ++ [dst])
  | ext (cur : EinsumId) (p : List EinsumId) (n : EinsumId) (q : List EinsumId) :
      n ∈ neighbors w cur → n ≠ dst → n ∉ p → Completes w dst n (p ++ [n]) q →
      Completes w dst cur p q

/-! ## Sets and lookups -/

/-- `std::set<...>::insert` / `emplace` on a set kept in ascending order. -/
def setInsert (x : Nat) : List Nat → List Nat
  | [] => [x]
  | y :: ys => if x < y then x :: y :: ys else if x = y then y :: ys else y :: setInsert x ys

/-- `std::map::at`: the value stored under a key, `out_of_range` when absent. -/
def mapAt {α : Type} (v : Option α) : Except Failure α :=
  match v with
  | some a => .ok a
  | none => .error .out_of_range

/-! ## Relevance (lines 68-117) -/

/-- `EinsumDimIsDirectlyRelevantToTensor(einsum, einsum_dim, dspace)`. -/
def EinsumDimIsDirectlyRelevantToTensor (lib : Isl M S) (w : FusedWorkload M S)
    (einsum : EinsumId) (einsum_dim : DimensionId) (dspace : DataSpaceId) : Except Failure Bool :=
  let is_read_tensor := decide (dspace ∈ w.TensorsReadByEinsum einsum)
  let is_written_tensor := decide (dspace ∈ w.TensorsWrittenByEinsum einsum)
  if !is_read_tensor && !is_written_tensor then
    .ok false
  else do
    let dim_idx ← mapAt (w.EinsumDimToIdx einsum einsum_dim)
    let projection ← w.Accesses einsum dspace
    pure (lib.involves_dims_in projection dim_idx)

/-! ## GetProjectedAccesses (lines 288-356) -/

/-- `*writer_einsum` of line 319: the optional is dereferenced with no test of
`has_value()`. -/
def derefWriter (writer_einsum : Option EinsumId) : Except Failure EinsumId :=
  match writer_einsum with
  | some e => .ok e
  | none => .error .empty_optional

/-- The set `src_einsums` built in lines 294-320. -/
def sourceEinsums (w : FusedWorkload M S) (einsum : EinsumId) (dspace : DataSpaceId) :
    Except Failure (List EinsumId) :=
  let src_einsums : List EinsumId := []
  let src_einsums :=
    if dspace ∈ w.TensorsReadByEinsum einsum then setInsert einsum src_einsums else src_einsums
  let src_einsums :=
    if src_einsums.length = 0 then
      if dspace ∈ w.TensorsWrittenByEinsum einsum then setInsert einsum src_einsums
      else src_einsums
    else src_einsums
  let src_einsums :=
    if src_einsums.length = 0 then
      (w.ReaderEinsums dspace).foldl (fun s e => setInsert e s) src_einsums
    else src_einsums
  if src_einsums.length = 0 then do
    let writer_einsum ← derefWriter (w.WriterEinsum dspace)
    pure (setInsert writer_einsum src_einsums)
  else pure src_einsums

/-- `*workload_.TensorsWrittenByEinsum(e).begin()`. -/
def firstWrittenTensor (w : FusedWorkload M S) (e : EinsumId) : Except Failure DataSpaceId :=
  match (w.TensorsWrittenByEinsum e).head? with
  | some t => .ok t
  | none => .error .empty_set

/-- The loop `for (const auto& e : chain)` of lines 331-351 over the elements
still to visit; `back` is `chain.back()`. -/
def walkAccesses (lib : Isl M S) (w : FusedWorkload M S) (src : EinsumId) (back : EinsumId) :
    List EinsumId → M → DataSpaceId → List M → Except Failure (List M)
  | [], _, _, accesses_list => .ok accesses_list
  | e :: rest, accesses, cur_tensor, accesses_list => do
      let accesses ←
        if e ≠ src then do
          let a ← w.Accesses e cur_tensor
          pure (lib.apply_range a accesses)
        else pure accesses
      if e = back then
        walkAccesses lib w src back rest accesses cur_tensor (accesses_list ++ [accesses])
      else do
        let cur_intermediate_tensor ← firstWrittenTensor w e
        let write_of_cur_intermediate ← w.Accesses e cur_intermediate_tensor
        walkAccesses lib w src back rest
          (lib.apply_range (lib.reverse write_of_cur_intermediate) accesses)
          cur_intermediate_tensor accesses_list

/-- Lines 329-351 for one chain of the source einsum `src`.  An empty chain has
no `back()`; its loop body never runs. -/
def projectAccessChain (lib : Isl M S) (w : FusedWorkload M S) (dspace : DataSpaceId)
    (src : EinsumId) (accesses_list : List M) (chain : List EinsumId) :
    Except Failure (List M) := do
  let accesses ← w.Accesses src dspace
  match chain.getLast? with
  | none => pure accesses_list
  | some back => walkAccesses lib w src back chain accesses dspace accesses_list

/-- Lines 325-352 for one source einsum: every chain from `src` to `einsum` is
walked. -/
def projectAccessesFrom (lib : Isl M S) (w : FusedWorkload M S) (einsum : EinsumId)
    (dspace : DataSpaceId) (accesses_list : List M) (src : EinsumId) :
    Except Failure (List M) :=
  (FindEinsumDependencyChain w src einsum).foldlM (projectAccessChain lib w dspace src)
    accesses_list

/-- `GetProjectedAccesses(einsum, dspace)`. -/
def GetProjectedAccesses (lib : Isl M S) (w : FusedWorkload M S) (einsum : EinsumId)
    (dspace : DataSpaceId) : Except Failure (List M) := do
  let src_einsums ← sourceEinsums w einsum dspace
  src_einsums.foldlM (projectAccessesFrom lib w einsum dspace) []

/-- `EinsumDimIsRelevantToTensor(einsum, einsum_dim, dspace)`. -/
def EinsumDimIsRelevantToTensor (lib : Isl M S) (w : FusedWorkload M S)
    (einsum : EinsumId) (einsum_dim : DimensionId) (dspace : DataSpaceId) : Except Failure Bool := do
  let dim_idx ← mapAt (w.EinsumDimToIdx einsum einsum_dim)
  let accesses_list ← GetProjectedAccesses lib w einsum dspace
  pure (accesses_list.any (fun accesses => lib.involves_dims_in accesses dim_idx))

/-! ## GetProjectedIterations (lines 359-400) -/

/-- The loop `for (const auto& e : chain)` of lines 376-396 over the elements
still to visit; `back` is `chain.back()`. -/
def walkIterations (lib : Isl M S) (w : FusedWorkload M S) (src : EinsumId)
    (back : EinsumId) :
    List EinsumId → M → DataSpaceId → List (M × EinsumId) → Except Failure (List (M × EinsumId))
  | [], _, _, projections => .ok projections
  | e :: rest, projection, cur_tensor, projections => do
      let projection ←
        if e ≠ src then do
          let a ← w.Accesses e cur_tensor
          pure (lib.apply_range a projection)
        else pure projection
      if e = back then
        walkIterations lib w src back rest projection cur_tensor
          (projections ++ [(projection, back)])
      else do
        let cur_intermediate_tensor ← firstWrittenTensor w e
        let write_of_cur_intermediate ← w.Accesses e cur_intermediate_tensor
        walkIterations lib w src back rest
          (lib.apply_range (lib.reverse write_of_cur_intermediate) projection)
          cur_intermediate_tensor projections

/-- Lines 370-396 for one chain; `DataSpaceId()` is 0.  An empty chain has no
`back()`; its loop body never runs. -/
def projectChain (lib : Isl M S) (w : FusedWorkload M S) (src : EinsumId)
    (projections : List (M × EinsumId)) (chain : List EinsumId) :
    Except Failure (List (M × EinsumId)) :=
  match chain.getLast? with
  | none => .ok projections
  | some back =>
    walkIterations lib w src back chain (lib.map_identity (w.EinsumOspaceBound src)) 0 projections

/-- `GetProjectedIterations(src, dst)`. -/
def GetProjectedIterations (lib : Isl M S) (w : FusedWorkload M S) (src dst : EinsumId) :
    Except Failure (List (M × EinsumId)) :=
  (FindEinsumDependencyChain w src dst).foldlM (projectChain lib w src) []

/-- The pairs for which the loop of lines 376-396 calls `Accesses` while it
walks the elements still to visit, in the order of the calls: line 380 for an
element other than `src`, line 392 for an element other than `chain.back()`
that writes a tensor.  A call is made only if the calls before it returned. -/
def walkLookups (w : FusedWorkload M S) (src back : EinsumId) :
    List EinsumId → DataSpaceId → List (EinsumId × DataSpaceId)
  | [], _ => []
  | e :: rest, cur_tensor =>
    (if e ≠ src then [(e, cur_tensor)] else []) ++
      (if e = back then walkLookups w src back rest cur_tensor
       else
         match (w.TensorsWrittenByEinsum e).head? with
         | some cur_intermediate_tensor =>
           (e, cur_intermediate_tensor) :: walkLookups w src back rest cur_intermediate_tensor
         | none => [])

/-! ## EquivalentDimensions (lines 184-285) -/

/-- The member `equivalent_dim_memo_`, a `std::map<DimensionId, std::set<DimensionId>>`. -/
abbrev EquivalentDimMemo := List (DimensionId × List DimensionId)

/-- `equivalent_dim_memo_[key] = value`: insert, or replace the value stored. -/
def memoAssign (memo : EquivalentDimMemo) (key : DimensionId) (value : List DimensionId) :
    EquivalentDimMemo :=
  (key, value) :: memo.filter (fun kv => decide (kv.1 ≠ key))

/-- The loop over the coefficients, lines 247-263, from index `i` on; the state
is `(has_equivalent_dim, found_potential_equivalent_dim, potential_equivalent_dim)`. -/
def coefficientLoop : List Int → Nat → Bool × Bool × Nat → Bool × Bool × Nat
  | [], _, st => st
  | coef :: rest, i, (has_equivalent_dim, found_potential_equivalent_dim,
      potential_equivalent_dim) =>
    if coef = 1 ∧ found_potential_equivalent_dim = false then
      coefficientLoop rest (i + 1) (has_equivalent_dim, true, i)
    else if coef = 1 ∧ found_potential_equivalent_dim = true then
      coefficientLoop rest (i + 1) (false, found_potential_equivalent_dim,
        potential_equivalent_dim)
    else if coef ≠ 0 then
      coefficientLoop rest (i + 1) (false, found_potential_equivalent_dim,
        potential_equivalent_dim)
    else
      coefficientLoop rest (i + 1) (has_equivalent_dim, found_potential_equivalent_dim,
        potential_equivalent_dim)

/-- Body of `for (auto [iteration, other_einsum] : iterations)`, lines 201-270:
the set `equivalent_ranks` after one projected iteration relation.  The index
arithmetic of lines 208-209 is done over the integers. -/
def equivalentStep (lib : Isl M S) (w : FusedWorkload M S) (dim_idx : Nat)
    (equivalent_ranks : List DimensionId) (it : M × EinsumId) :
    Except Failure (List DimensionId) :=
  let iteration := it.1
  let other_einsum := it.2
  if lib.n_basic_map iteration ≠ 1 then
    .ok equivalent_ranks
  else
    let n_dim_out : Int := lib.dim_out iteration
    let to_project_after : Int := n_dim_out - dim_idx - 1
    let to_project_before : Nat := dim_idx
    let p_projected_map :=
      if to_project_after > 0 then
        lib.project_out iteration (dim_idx + 1) to_project_after.toNat
      else iteration
    let p_projected_map :=
      if to_project_before > 0 then lib.project_out p_projected_map 0 to_project_before
      else p_projected_map
    if lib.is_single_valued p_projected_map = false then
      .ok equivalent_ranks
    else if lib.multi_pw_aff_size p_projected_map ≠ 1 then
      .error .unreachable
    else if lib.pw_aff_n_piece p_projected_map ≠ 1 then
      .ok equivalent_ranks
    else
      let st := coefficientLoop (lib.aff_coefficients p_projected_map) 0 (true, false, 0)
      if st.1 = true then do
        let equivalent_rank ← mapAt (w.EinsumIdxToDim other_einsum st.2.2)
        pure (setInsert equivalent_rank equivalent_ranks)
      else
        .ok equivalent_ranks

/-- Body of `for (auto [dst, _] : workload_.EinsumIdToName())`, lines 198-271. -/
def equivalentOver (lib : Isl M S) (w : FusedWorkload M S) (einsum : EinsumId) (dim_idx : Nat)
    (equivalent_ranks : List DimensionId) (entry : EinsumId × String) :
    Except Failure (List DimensionId) := do
  let iterations ← GetProjectedIterations lib w einsum entry.1
  iterations.foldlM (equivalentStep lib w dim_idx) equivalent_ranks

/-- The loop of lines 275-282 over the ranks still to visit. -/
def propagateClass (einsum_dim : DimensionId) :
    List DimensionId → EquivalentDimMemo → Except Failure EquivalentDimMemo
  | [], memo => .ok memo
  | rank :: rest, memo =>
    if rank = einsum_dim then
      propagateClass einsum_dim rest memo
    else do
      let cls ← mapAt (memo.lookup einsum_dim)
      propagateClass einsum_dim rest (memoAssign memo rank cls)

/-- `EquivalentDimensions(einsum, einsum_dim)` on the cache `memo`: the set
returned and the cache afterwards. -/
def EquivalentDimensions (lib : Isl M S) (w : FusedWorkload M S) (memo : EquivalentDimMemo)
    (einsum : EinsumId) (einsum_dim : DimensionId) :
    Except Failure (List DimensionId × EquivalentDimMemo) :=
  match memo.lookup einsum_dim with
  | some cls => .ok (cls, memo)
  | none => do
    let dim_idx ← mapAt (w.EinsumDimToIdx einsum einsum_dim)
    let equivalent_ranks ← w.EinsumIdToName.foldlM (equivalentOver lib w einsum dim_idx) []
    let memo := memoAssign memo einsum_dim equivalent_ranks
    let memo ← propagateClass einsum_dim equivalent_ranks memo
    let cls ← mapAt (memo.lookup einsum_dim)
    pure (cls, memo)

/-- The map `p_projected_map` after lines 206-224: the output dimensions of
`iteration` other than `dim_idx` are projected out. -/
def projectToDim (lib : Isl M S) (dim_idx : Nat) (iteration : M) : M :=
  let n_dim_out : Int := lib.dim_out iteration
  let to_project_after : Int := n_dim_out - dim_idx - 1
  let to_project_before : Nat := dim_idx
  let p_projected_map :=
    if to_project_after > 0 then
      lib.project_out iteration (dim_idx + 1) to_project_after.toNat
    else iteration
  if to_project_before > 0 then lib.project_out p_projected_map 0 to_project_before
  else p_projected_map

/-- Lines 243-270 on the list `coefs` of the coefficients that the loop reads:
the set `equivalent_ranks` after the coefficient test. -/
def coefficientTest (w : FusedWorkload M S) (other_einsum : EinsumId) (coefs : List Int)
    (equivalent_ranks : List DimensionId) : Except Failure (List DimensionId) :=
  let st := coefficientLoop coefs 0 (true, false, 0)
  if st.1 = true then do
    let equivalent_rank ← mapAt (w.EinsumIdxToDim other_einsum st.2.2)
    pure (setInsert equivalent_rank equivalent_ranks)
  else
    .ok equivalent_ranks

/-- An affine function (`isl_aff`): one coefficient per input dimension and a
constant term. -/
structure Aff where
  coefficients : List Int
  constant : Int
  deriving DecidableEq, Repr

/-- `isl_aff_dim(p_aff, isl_dim_in)`. -/
def Aff.dim_in (p_aff : Aff) : Nat :=
  p_aff.coefficients.length

/-- `isl_aff_get_coefficient_val(p_aff, isl_dim_in, i)`. -/
def Aff.get_coefficient_val (p_aff : Aff) (i : Nat) : Int :=
  p_aff.coefficients.getD i 0

/-- The coefficients the loop of lines 247-249 reads from `p_aff`, for
`i = 0, ..., isl_aff_dim(p_aff, isl_dim_in) - 1`; the constant term is not read. -/
def Aff.readCoefficients (p_aff : Aff) : List Int :=
  (List.range p_aff.dim_in).map p_aff.get_coefficient_val

/-- What the library gives for the identity relation on the iteration space
`bound`, projected to its output dimension `dim_idx`: the identity is one basic
map, its projection is single-valued with one component of one piece, and the
coefficient of that piece is 1 at `dim_idx` and 0 at every other input
dimension. -/
def IdentityProjectsToUnit (lib : Isl M S) (bound : S) (dim_idx : Nat) : Prop :=
  lib.n_basic_map (lib.map_identity bound) = 1 ∧
  lib.is_single_valued (projectToDim lib dim_idx (lib.map_identity bound)) = true ∧
  lib.multi_pw_aff_size (projectToDim lib dim_idx (lib.map_identity bound)) = 1 ∧
  lib.pw_aff_n_piece (projectToDim lib dim_idx (lib.map_identity bound)) = 1 ∧
  (lib.aff_coefficients (projectToDim lib dim_idx (lib.map_identity bound)))[dim_idx]? = some 1 ∧
  ∀ (j : Nat) (c : Int), j ≠ dim_idx →
    (lib.aff_coefficients (projectToDim lib dim_idx (lib.map_identity bound)))[j]? = some c →
    c = 0

/-- The dimension tables of the workload are sound: a dimension with an index
in `EinsumDimToIdx(einsum)` belongs to an einsum listed in `EinsumIdToName`,
`EinsumIdxToDim(einsum)` maps the index back to the dimension, and the library
projects the identity on the einsum's iteration space to a unit coefficient at
that index. -/
def DimTablesSound (lib : Isl M S) (w : FusedWorkload M S) : Prop :=
  ∀ einsum einsum_dim dim_idx, w.EinsumDimToIdx einsum einsum_dim = some dim_idx →
    (∃ name, (einsum, name) ∈ w.EinsumIdToName) ∧
    w.EinsumIdxToDim einsum dim_idx = some einsum_dim ∧
    IdentityProjectsToUnit lib (w.EinsumOspaceBound einsum) dim_idx

/-- The states of `equivalent_dim_memo_` an analyzer can be in: empty at
construction, then changed by the queries that return. -/
inductive EquivalentMemoReachable (lib : Isl M S) (w : FusedWorkload M S) :
    EquivalentDimMemo → Prop where
  | fresh : EquivalentMemoReachable lib w []
  | query (memo memo' : EquivalentDimMemo) (einsum : EinsumId) (einsum_dim : DimensionId)
      (C : List DimensionId) :
      EquivalentMemoReachable lib w memo →
      EquivalentDimensions lib w memo einsum einsum_dim = .ok (C, memo') →
      EquivalentMemoReachable lib w memo'

/-! ## Memoized relevance sets (lines 119-181) -/

/-- The members `directly_relevant_einsum_dim_memo_` and
`relevant_einsum_dim_memo_`, maps from `(einsum, dspace)` to a set of
dimensions. -/
abbrev RelevantDimMemo := List ((EinsumId × DataSpaceId) × List DimensionId)

/-- `memo.emplace_hint(it, {key, value})`: inserts unless the key is present. -/
def memoEmplace (memo : RelevantDimMemo) (key : EinsumId × DataSpaceId)
    (value : List DimensionId) : RelevantDimMemo :=
  match memo.lookup key with
  | some _ => memo
  | none => (key, value) :: memo

/-- The loop of lines 133-140 and of lines 165-172: the dimensions of the
einsum that pass `test`, collected into the set `relevant_dims`. -/
def collectRelevantDims (test : DimensionId → Except Failure Bool)
    (dims : List DimensionId) : Except Failure (List DimensionId) :=
  dims.foldlM
    (fun relevant_dims einsum_dim => do
      let relevant ← test einsum_dim
      pure (if relevant then setInsert einsum_dim relevant_dims else relevant_dims))
    []

/-- The memoization of lines 125-148 and of lines 157-180 around the
computation `compute` of the set: the set returned and the cache afterwards. -/
def memoizedDims (compute : Except Failure (List DimensionId)) (memo : RelevantDimMemo)
    (key : EinsumId × DataSpaceId) : Except Failure (List DimensionId × RelevantDimMemo) :=
  match memo.lookup key with
  | some dims => .ok (dims, memo)
  | none => do
    let relevant_dims ← compute
    let memo := memoEmplace memo key relevant_dims
    let dims ← mapAt (memo.lookup key)
    pure (dims, memo)

/-- `EinsumDimsDirectlyRelevantToTensor(einsum, dspace)` on the cache `memo`. -/
def EinsumDimsDirectlyRelevantToTensor (lib : Isl M S) (w : FusedWorkload M S)
    (memo : RelevantDimMemo) (einsum : EinsumId) (dspace : DataSpaceId) :
    Except Failure (List DimensionId × RelevantDimMemo) :=
  memoizedDims
    (collectRelevantDims (fun einsum_dim =>
      EinsumDimIsDirectlyRelevantToTensor lib w einsum einsum_dim dspace)
      (w.EinsumOspaceDimensions einsum))
    memo (einsum, dspace)

/-- `EinsumDimsRelevantToTensor(einsum, dspace)` on the cache `memo`. -/
def EinsumDimsRelevantToTensor (lib : Isl M S) (w : FusedWorkload M S)
    (memo : RelevantDimMemo) (einsum : EinsumId) (dspace : DataSpaceId) :
    Except Failure (List DimensionId × RelevantDimMemo) :=
  memoizedDims
    (collectRelevantDims (fun einsum_dim =>
      EinsumDimIsRelevantToTensor lib w einsum einsum_dim dspace)
      (w.EinsumOspaceDimensions einsum))
    memo (einsum, dspace)

/-- The states of `relevant_einsum_dim_memo_` an analyzer can be in: empty at
construction, then changed by the queries that return. -/
inductive RelevantMemoReachable (lib : Isl M S) (w : FusedWorkload M S) :
    RelevantDimMemo → Prop where
  | fresh : RelevantMemoReachable lib w []
  | query (memo memo' : RelevantDimMemo) (einsum : EinsumId) (dspace : DataSpaceId)
      (dims : List DimensionId) :
      RelevantMemoReachable lib w memo →
      EinsumDimsRelevantToTensor lib w memo einsum dspace = .ok (dims, memo') →
      RelevantMemoReachable lib w memo'

/-- The states of `directly_relevant_einsum_dim_memo_` an analyzer can be in. -/
inductive DirectMemoReachable (lib : Isl M S) (w : FusedWorkload M S) :
    RelevantDimMemo → Prop where
  | fresh : DirectMemoReachable lib w []
  | query (memo memo' : RelevantDimMemo) (einsum : EinsumId) (dspace : DataSpaceId)
      (dims : List DimensionId) :
      DirectMemoReachable lib w memo →
      EinsumDimsDirectlyRelevantToTensor lib w memo einsum dspace = .ok (dims, memo') →
      DirectMemoReachable lib w memo'

/-- A cache in which every entry is the set `compute` gives for its key. -/
def MemoConsistent (compute : EinsumId × DataSpaceId → Except Failure (List DimensionId))
    (memo : RelevantDimMemo) : Prop :=
  ∀ key dims, memo.lookup key = some dims → compute key = .ok dims

/-- The set `EinsumDimsRelevantToTensor` computes when it finds no cache entry
(lines 165-172). -/
def relevantDims (lib : Isl M S) (w : FusedWorkload M S) (key : EinsumId × DataSpaceId) :
    Except Failure (List DimensionId) :=
  collectRelevantDims (fun einsum_dim =>
    EinsumDimIsRelevantToTensor lib w key.1 einsum_dim key.2) (w.EinsumOspaceDimensions key.1)

/-- The set `EinsumDimsDirectlyRelevantToTensor` computes when it finds no cache
entry (lines 133-140). -/
def directlyRelevantDims (lib : Isl M S) (w : FusedWorkload M S)
    (key : EinsumId × DataSpaceId) : Except Failure (List DimensionId) :=
  collectRelevantDims (fun einsum_dim =>
    EinsumDimIsDirectlyRelevantToTensor lib w key.1 einsum_dim key.2)
    (w.EinsumOspaceDimensions key.1)

/-! ## A small instance of the library and example workloads -/

/-- Product of two integer matrices given by their rows. -/
def matMul (b a : List (List Int)) : List (List Int) :=
  b.map (fun row =>
    (List.range ((a.head?.map List.length).getD 0)).map (fun j =>
      (List.zipWith (fun x arow => x * arow.getD j 0) row a).sum))

/-- Transpose of an integer matrix with `n` columns. -/
def matTranspose (n : Nat) (a : List (List Int)) : List (List Int) :=
  (List.range n).map (fun j => a.map (fun row => row.getD j 0))

/-- The library on the relations `{ x -> A x }` given by an integer matrix `A`
(one row per output dimension); an `isl::set` is given by its number of
dimensions.  Such a relation is one basic map and a single-valued affine
function of one piece.  `reverse` is the transpose, which is the reverse
relation when `A` is a permutation matrix; the workloads below only use the
identity. -/
def matrixIsl : Isl (List (List Int)) Nat where
  map_identity := fun n => (List.range n).map (fun i => (List.range n).map (fun j =>
    if i = j then 1 else 0))
  apply_range := fun a b => matMul b a
  reverse := fun a => matTranspose ((a.head?.map List.length).getD 0) a
  involves_dims_in := fun a k => a.any (fun row => decide (row.getD k 0 ≠ 0))
  n_basic_map := fun _ => 1
  dim_out := fun a => a.length
  project_out := fun a first n => a.take first ++ a.drop (first + n)
  is_single_valued := fun _ => true
  multi_pw_aff_size := fun a => a.length
  pw_aff_n_piece := fun _ => 1
  aff_coefficients := fun a => a.headD []

/-- The diamond `0 → 1 → 3`, `0 → 2 → 3`: einsum 0 writes tensor 10, read by
1 and 2; 1 writes 11 and 2 writes 12, both read by 3; 3 writes the output 13. -/
def diamond : FusedWorkload Unit Unit where
  EinsumIdToName := [(0, "src"), (1, "a"), (2, "b"), (3, "dst")]
  TensorsReadByEinsum := fun e => if e = 1 ∨ e = 2 then [10] else if e = 3 then [11, 12] else []
  written_tensors := [(0, [10]), (1, [11]), (2, [12]), (3, [13])]
  reader_einsums := [(10, [1, 2]), (11, [3]), (12, [3]), (13, [])]
  WriterEinsum := fun t => if 10 ≤ t ∧ t ≤ 13 then some (t - 10) else none
  EinsumOspaceDimensions := fun _ => []
  EinsumOspaceBound := fun _ => ()
  EinsumDimToIdx := fun _ _ => none
  EinsumIdxToDim := fun _ _ => none
  access_relation := fun _ _ => ()

/-- A two-einsum cycle: einsum 0 reads the input tensor 10 and tensor 12 and
writes tensor 11; einsum 1 reads tensor 11 and writes tensor 12.  Both have one
dimension (ids 100 and 101, index 0) and every access relation is the 1 x 1
matrix given in `access_relation`. -/
def cyclic : FusedWorkload (List (List Int)) Nat where
  EinsumIdToName := [(0, "E0"), (1, "E1")]
  TensorsReadByEinsum := fun e => if e = 0 then [10, 12] else if e = 1 then [11] else []
  written_tensors := [(0, [11]), (1, [12])]
  reader_einsums := [(10, [0]), (11, [1]), (12, [0])]
  WriterEinsum := fun t => if t = 11 then some 0 else if t = 12 then some 1 else none
  EinsumOspaceDimensions := fun e => if e = 0 then [100] else if e = 1 then [101] else []
  EinsumOspaceBound := fun _ => 1
  EinsumDimToIdx := fun e d => if (e = 0 ∧ d = 100) ∨ (e = 1 ∧ d = 101) then some 0 else none
  EinsumIdxToDim := fun e i => if i = 0 ∧ e = 0 then some 100 else if i = 0 ∧ e = 1 then some 101
    else none
  access_relation := fun _ _ => [[1]]

/-- Einsum 0 reads and writes tensor 10 (an accumulated output): it is a reader
of the tensor it writes. -/
def selfReader : FusedWorkload (List (List Int)) Nat where
  EinsumIdToName := [(0, "E0")]
  TensorsReadByEinsum := fun e => if e = 0 then [10] else []
  written_tensors := [(0, [10])]
  reader_einsums := [(10, [0])]
  WriterEinsum := fun t => if t = 10 then some 0 else none
  EinsumOspaceDimensions := fun e => if e = 0 then [100] else []
  EinsumOspaceBound := fun _ => 1
  EinsumDimToIdx := fun e d => if e = 0 ∧ d = 100 then some 0 else none
  EinsumIdxToDim := fun e i => if i = 0 ∧ e = 0 then some 100 else none
  access_relation := fun _ _ => [[1]]

/-- The two-einsum pipeline of the spec's scenario: einsum 0 (dimension 100)
writes tensor 11 with the identity access, einsum 1 (dimension 101) reads it
with the identity access and writes the output tensor 12.  Tensor 13 is known
to the workload but has neither reader nor writer. -/
def pipeline : FusedWorkload (List (List Int)) Nat where
  EinsumIdToName := [(0, "A"), (1, "B")]
  TensorsReadByEinsum := fun e => if e = 1 then [11] else []
  written_tensors := [(0, [11]), (1, [12])]
  reader_einsums := [(11, [1]), (12, []), (13, [])]
  WriterEinsum := fun t => if t = 11 then some 0 else if t = 12 then some 1 else none
  EinsumOspaceDimensions := fun e => if e = 0 then [100] else if e = 1 then [101] else []
  EinsumOspaceBound := fun _ => 1
  EinsumDimToIdx := fun e d => if (e = 0 ∧ d = 100) ∨ (e = 1 ∧ d = 101) then some 0 else none
  EinsumIdxToDim := fun e i => if i = 0 ∧ e = 0 then some 100 else if i = 0 ∧ e = 1 then some 101
    else none
  access_relation := fun _ _ => [[1]]

/-- The pipeline in which einsum 1 reads only element 0 of tensor 11: its access
relation is the constant `{ [j] -> [0] }`, the zero matrix. -/
def broadcast : FusedWorkload (List (List Int)) Nat :=
  { pipeline with
    access_relation := fun e t => if e = 1 ∧ t = 11 then [[0]] else [[1]] }

/-- The library `matrixIsl` reporting `n_basic` basic maps and `n_piece` pieces
for every relation; it stands for relations that are given piecewise. -/
def piecewiseIsl (n_basic n_piece : Nat) : Isl (List (List Int)) Nat :=
  { matrixIsl with n_basic_map := fun _ => n_basic, pw_aff_n_piece := fun _ => n_piece }

/-- Einsum 0 (dimension 100) writes the tensors 10 and 11, einsum 1 (dimension
101) reads tensor 11 only and writes the output tensor 12; every access is the
identity. -/
def twoOutputs : FusedWorkload (List (List Int)) Nat where
  EinsumIdToName := [(0, "A"), (1, "B")]
  TensorsReadByEinsum := fun e => if e = 1 then [11] else []
  written_tensors := [(0, [10, 11]), (1, [12])]
  reader_einsums := [(10, []), (11, [1]), (12, [])]
  WriterEinsum := fun t => if t = 10 ∨ t = 11 then some 0 else if t = 12 then some 1 else none
  EinsumOspaceDimensions := fun e => if e = 0 then [100] else if e = 1 then [101] else []
  EinsumOspaceBound := fun _ => 1
  EinsumDimToIdx := fun e d => if (e = 0 ∧ d = 100) ∨ (e = 1 ∧ d = 101) then some 0 else none
  EinsumIdxToDim := fun e i => if i = 0 ∧ e = 0 then some 100 else if i = 0 ∧ e = 1 then some 101
    else none
  access_relation := fun _ _ => [[1]]

/-- Three einsums in a row, each with one dimension (ids 100, 101, 102): einsum
0 writes tensor 11, einsum 1 reads it and writes tensor 12, einsum 2 reads that
and writes the output tensor 13.  Einsum 1 reads tensor 11 doubled, every other
access is the identity. -/
def threeStage : FusedWorkload (List (List Int)) Nat where
  EinsumIdToName := [(0, "A"), (1, "B"), (2, "C")]
  TensorsReadByEinsum := fun e => if e = 1 then [11] else if e = 2 then [12] else []
  written_tensors := [(0, [11]), (1, [12]), (2, [13])]
  reader_einsums := [(11, [1]), (12, [2]), (13, [])]
  WriterEinsum := fun t => if 11 ≤ t ∧ t ≤ 13 then some (t - 11) else none
  EinsumOspaceDimensions := fun e => if e ≤ 2 then [100 + e] else []
  EinsumOspaceBound := fun _ => 1
  EinsumDimToIdx := fun e d => if e ≤ 2 ∧ d = 100 + e then some 0 else none
  EinsumIdxToDim := fun e i => if i = 0 ∧ e ≤ 2 then some (100 + e) else none
  access_relation := fun e t => if e = 1 ∧ t = 11 then [[2]] else [[1]]

/-! ## Lemmas on the search loop -/

theorem mem_neighbors (w : FusedWorkload M S) (a b : EinsumId) :
    b ∈ neighbors w a ↔ DependsOn w a b := by
  simp [neighbors, DependsOn, List.mem_flatMap]

theorem foldl_visitReader (dst : EinsumId) (path : List EinsumId) (ns : List EinsumId) :
    ∀ st : SearchState, ns.foldl (visitReader dst path) st
      = (pushed dst path ns ++ st.1, st.2 ++ recorded dst path ns) := by
  induction ns with
  | nil => intro st; simp [pushed, recorded]
  | cons n ns ih =>
    intro st
    rw [List.foldl_cons, ih]
    by_cases h1 : n = dst
    · simp [visitReader, pushed, recorded, h1, List.filter_cons]
    · by_cases h2 : n ∈ path
      · simp [visitReader, pushed, recorded, h1, h2, List.filter_cons]
      · simp [visitReader, pushed, recorded, h1, h2, List.filter_cons]

theorem foldl_flatMap_visit {α β γ : Type} (f : α → β → α) (g : γ → List β) (l : List γ) :
    ∀ a : α, l.foldl (fun a t => (g t).foldl f a) a = (l.flatMap g).foldl f a := by
  induction l with
  | nil => intro a; rfl
  | cons t l ih => intro a; simp [List.flatMap_cons, List.foldl_append, ih]

theorem visitEinsum_eq (w : FusedWorkload M S) (dst cur : EinsumId) (path : List EinsumId)
    (st : SearchState) :
    visitEinsum w dst cur path st
      = (pushed dst path (neighbors w cur) ++ st.1, st.2 ++ recorded dst path (neighbors w cur)) := by
  unfold visitEinsum
  rw [foldl_flatMap_visit (visitReader dst path) w.ReaderEinsums]
  exact foldl_visitReader dst path _ st

theorem mem_pushed {dst : EinsumId} {path ns : List EinsumId} {e : StackEntry} :
    e ∈ pushed dst path ns ↔ ∃ n, n ∈ ns ∧ n ≠ dst ∧ n ∉ path ∧ e = (n, path ++ [n]) := by
  simp only [pushed, List.mem_reverse, List.mem_map, List.mem_filter, decide_eq_true_eq]
  constructor
  · rintro ⟨n, ⟨h1, h2, h3⟩, rfl⟩; exact ⟨n, h1, h2, h3, rfl⟩
  · rintro ⟨n, h1, h2, h3, rfl⟩; exact ⟨n, ⟨h1, h2, h3⟩, rfl⟩

theorem mem_recorded {dst : EinsumId} {path ns : List EinsumId} {q : List EinsumId} :
    q ∈ recorded dst path ns ↔ dst ∈ ns ∧ q = path ++ [dst] := by
  simp only [recorded, List.mem_map, List.mem_filter, decide_eq_true_eq]
  constructor
  · rintro ⟨n, ⟨h1, rfl⟩, rfl⟩; exact ⟨h1, rfl⟩
  · rintro ⟨h1, rfl⟩; exact ⟨dst, ⟨h1, rfl⟩, rfl⟩

/-- The loop keeps an invariant `I` of the stack entries and a property `R` of
the recorded chains. -/
theorem searchLoop_invariant (w : FusedWorkload M S) (dst : EinsumId)
    (I : StackEntry → Prop) (R : List EinsumId → Prop)
    (hpush : ∀ cur p n, I (cur, p) → n ∈ neighbors w cur → n ≠ dst → n ∉ p → I (n, p ++ [n]))
    (hhit : ∀ cur p, I (cur, p) → dst ∈ neighbors w cur → R (p ++ [dst])) :
    ∀ (n : Nat) (st : SearchState), (∀ e ∈ st.1, I e) → (∀ q ∈ st.2, R q) →
      (∀ e ∈ (searchLoop w dst n st).1, I e) ∧ (∀ q ∈ (searchLoop w dst n st).2, R q) := by
  intro n
  induction n with
  | zero => intro st h1 h2; exact ⟨h1, h2⟩
  | succ n ih =>
    rintro ⟨stack, result⟩ h1 h2
    cases stack with
    | nil => exact ⟨h1, h2⟩
    | cons top rest =>
      obtain ⟨cur, p⟩ := top
      simp only [searchLoop]
      apply ih
      · intro e he
        rw [visitEinsum_eq] at he
        rcases List.mem_append.1 he with he | he
        · obtain ⟨n', hn1, hn2, hn3, rfl⟩ := mem_pushed.1 he
          exact hpush cur p n' (h1 _ (List.mem_cons_self _ _)) hn1 hn2 hn3
        · exact h1 _ (List.mem_cons_of_mem _ he)
      · intro q hq
        rw [visitEinsum_eq] at hq
        rcases List.mem_append.1 hq with hq | hq
        · exact h2 _ hq
        · obtain ⟨hd, rfl⟩ := mem_recorded.1 hq
          exact hhit cur p (h1 _ (List.mem_cons_self _ _)) hd

/-! ## The loop empties its stack -/

theorem lookup_getD_sublist {α : Type} (tbl : List (Nat × List α)) (k : Nat) :
    ((tbl.lookup k).getD []).Sublist (tbl.flatMap Prod.snd) := by
  induction tbl with
  | nil => simp
  | cons kv tbl ih =>
    obtain ⟨a, b⟩ := kv
    rw [List.lookup_cons, List.flatMap_cons]
    cases h : (k == a) with
    | true => simp
    | false => simpa using ih.trans (List.sublist_append_right b _)

theorem readers_sublist (w : FusedWorkload M S) (t : DataSpaceId) :
    (w.ReaderEinsums t).Sublist (allReaders w) :=
  lookup_getD_sublist w.reader_einsums t

theorem length_flatMap_le {α β : Type} (f : α → List β) (B : Nat)
    (hf : ∀ t, (f t).length ≤ B) (l : List α) : (l.flatMap f).length ≤ l.length * B := by
  induction l with
  | nil => simp
  | cons t l ih =>
    simp only [List.flatMap_cons, List.length_append, List.length_cons]
    have := hf t
    nlinarith

theorem neighbors_length_le (w : FusedWorkload M S) (cur : EinsumId) :
    (neighbors w cur).length ≤ fanOut w := by
  unfold neighbors fanOut
  have h1 := length_flatMap_le w.ReaderEinsums (allReaders w).length
    (fun t => (readers_sublist w t).length_le) (w.TensorsWrittenByEinsum cur)
  have h2 : (w.TensorsWrittenByEinsum cur).length ≤ (w.written_tensors.flatMap Prod.snd).length :=
    (lookup_getD_sublist w.written_tensors cur).length_le
  exact h1.trans (Nat.mul_le_mul_right _ h2)

theorem mem_allReaders_of_mem_neighbors (w : FusedWorkload M S) {cur n : EinsumId}
    (h : n ∈ neighbors w cur) : n ∈ allReaders w := by
  obtain ⟨T, _, hT⟩ := (mem_neighbors w cur n).1 h
  exact (readers_sublist w T).subset hT

theorem pathWeight_pos (w : FusedWorkload M S) (p : List EinsumId) : 0 < pathWeight w p :=
  Nat.pos_pow_of_pos _ (Nat.succ_pos _)

/-- Extending a path by a reader that is not on it divides its weight by at
least `fanOut w + 1`. -/
theorem pathWeight_extend (w : FusedWorkload M S) (p : List EinsumId) (n : EinsumId)
    (hn : n ∈ allReaders w) (hp : n ∉ p) :
    pathWeight w (p ++ [n]) * (fanOut w + 1) ≤ pathWeight w p := by
  have hlt : ((allReaders w).filter (fun e => decide (e ∉ p ++ [n]))).length
      < ((allReaders w).filter (fun e => decide (e ∉ p))).length := by
    have hff : (allReaders w).filter (fun e => decide (e ∉ p ++ [n]))
        = ((allReaders w).filter (fun e => decide (e ∉ p))).filter (fun e => decide (e ≠ n)) := by
      rw [List.filter_filter]
      congr 1
      funext e
      simp [not_or, and_comm]
    rw [hff]
    apply List.length_filter_lt_length_iff_exists.2
    exact ⟨n, List.mem_filter.2 ⟨hn, by simpa using hp⟩, by simp⟩
  unfold pathWeight
  rw [← Nat.pow_succ]
  exact Nat.pow_le_pow_right (Nat.succ_pos _) hlt

theorem stackWeight_pushed (w : FusedWorkload M S) (dst cur : EinsumId) (p : List EinsumId) :
    stackWeight w (pushed dst p (neighbors w cur)) < pathWeight w p := by
  have key : ∀ s : List StackEntry,
      (∀ e ∈ s, pathWeight w e.2 * (fanOut w + 1) ≤ pathWeight w p) →
      stackWeight w s * (fanOut w + 1) ≤ s.length * pathWeight w p := by
    intro s
    induction s with
    | nil => intro _; simp [stackWeight]
    | cons e s ih =>
      intro h
      have h1 := h e (List.mem_cons_self _ _)
      have h2 := ih (fun e' he' => h e' (List.mem_cons_of_mem _ he'))
      simp only [stackWeight, List.map_cons, List.sum_cons, List.length_cons] at h2 ⊢
      nlinarith
  have hall : ∀ e ∈ pushed dst p (neighbors w cur),
      pathWeight w e.2 * (fanOut w + 1) ≤ pathWeight w p := by
    intro e he
    obtain ⟨n, hn1, _, hn3, rfl⟩ := mem_pushed.1 he
    exact pathWeight_extend w p n (mem_allReaders_of_mem_neighbors w hn1) hn3
  have hlen : (pushed dst p (neighbors w cur)).length ≤ fanOut w := by
    unfold pushed
    rw [List.length_reverse, List.length_map]
    exact (List.length_filter_le _ _).trans (neighbors_length_le w cur)
  have h3 := key _ hall
  have h4 := pathWeight_pos w p
  have h5 : (pushed dst p (neighbors w cur)).length * pathWeight w p
      ≤ fanOut w * pathWeight w p := Nat.mul_le_mul_right _ hlen
  by_contra hcon
  push_neg at hcon
  nlinarith

theorem stackWeight_append (w : FusedWorkload M S) (s t : List StackEntry) :
    stackWeight w (s ++ t) = stackWeight w s + stackWeight w t := by
  simp [stackWeight]

/-- Within `stackWeight` iterations the loop has emptied the stack. -/
theorem searchLoop_stack_nil (w : FusedWorkload M S) (dst : EinsumId) :
    ∀ (n : Nat) (st : SearchState), stackWeight w st.1 ≤ n → (searchLoop w dst n st).1 = [] := by
  intro n
  induction n with
  | zero =>
    rintro ⟨stack, result⟩ h
    cases stack with
    | nil => rfl
    | cons top rest =>
      have := pathWeight_pos w top.2
      simp [stackWeight] at h
      omega
  | succ n ih =>
    rintro ⟨stack, result⟩ h
    cases stack with
    | nil => rfl
    | cons top rest =>
      obtain ⟨cur, p⟩ := top
      simp only [searchLoop]
      apply ih
      rw [visitEinsum_eq]
      simp only [stackWeight_append]
      have h1 := stackWeight_pushed w dst cur p
      have h2 : stackWeight w ((cur, p) :: rest) = pathWeight w p + stackWeight w rest := by
        simp [stackWeight]
      simp only [h2] at h
      omega

theorem stackWeight_init_le (w : FusedWorkload M S) (src dst : EinsumId) :
    stackWeight w (searchInit src dst).1 ≤ searchBound w := by
  simp only [searchInit, stackWeight, List.map_cons, List.map_nil, List.sum_cons, List.sum_nil,
    Nat.add_zero, pathWeight, searchBound]
  exact Nat.pow_le_pow_right (Nat.succ_pos _) (List.length_filter_le _ _)

/-- The `while` loop of `FindEinsumDependencyChain` has left its stack empty
after `searchBound w` iterations: the result is that of the completed search. -/
theorem searchLoop_stack_empty (w : FusedWorkload M S) (src dst : EinsumId) :
    (searchLoop w dst (searchBound w) (searchInit src dst)).1 = [] :=
  searchLoop_stack_nil w dst _ _ (stackWeight_init_le w src dst)

/-! ## Properties of the chains found -/

theorem Linked_append_singleton (w : FusedWorkload M S) (p : List EinsumId) (cur n : EinsumId)
    (hp : Linked w p) (hlast : p.getLast? = some cur) (he : DependsOn w cur n) :
    Linked w (p ++ [n]) := by
  intro i a b ha hb
  by_cases h : i + 1 < p.length
  · rw [List.getElem?_append_left (by omega)] at ha
    rw [List.getElem?_append_left h] at hb
    exact hp i a b ha hb
  · have hi : i + 1 < (p ++ [n]).length := by
      by_contra hcon
      rw [List.getElem?_eq_none (by omega)] at hb
      exact absurd hb (by simp)
    simp only [List.length_append, List.length_singleton] at hi
    have hip : i + 1 = p.length := by omega
    rw [List.getElem?_append_right (by omega)] at hb
    rw [List.getElem?_append_left (by omega)] at ha
    rw [List.getLast?_eq_getElem?] at hlast
    have h1 : p.length - 1 = i := by omega
    rw [h1, ha] at hlast
    have h2 : i + 1 - p.length = 0 := by omega
    rw [h2] at hb
    simp only [List.getElem?_cons_zero, Option.some.injEq] at hb hlast
    subst hb
    subst hlast
    exact he

theorem Linked_singleton (w : FusedWorkload M S) (s : EinsumId) : Linked w [s] := by
  intro i a b _ hb
  simp at hb

/-- Every chain found is linked by producer-consumer edges. -/
theorem FindEinsumDependencyChain_linked (w : FusedWorkload M S) (src dst : EinsumId)
    (chain : List EinsumId) (h : chain ∈ FindEinsumDependencyChain w src dst) :
    Linked w chain := by
  have key := searchLoop_invariant w dst
    (fun e => e.2.getLast? = some e.1 ∧ Linked w e.2) (Linked w)
    (by
      rintro cur p n ⟨h1, h2⟩ hn _ _
      exact ⟨by simp, Linked_append_singleton w p cur n h2 h1 ((mem_neighbors w cur n).1 hn)⟩)
    (by
      rintro cur p ⟨h1, h2⟩ hd
      exact Linked_append_singleton w p cur dst h2 h1 ((mem_neighbors w cur dst).1 hd))
    (searchBound w) (searchInit src dst)
    (by
      intro e he
      simp only [searchInit, List.mem_singleton] at he
      subst he
      exact ⟨rfl, Linked_singleton w src⟩)
    (by
      intro q hq
      simp only [searchInit] at hq
      split at hq
      · simp only [List.mem_singleton] at hq
        subst hq
        exact Linked_singleton w src
      · simp at hq)
  exact key.2 chain h

theorem FindEinsumDependencyChain_ends (w : FusedWorkload M S) (src dst : EinsumId)
    (chain : List EinsumId) (h : chain ∈ FindEinsumDependencyChain w src dst) :
    chain.head? = some src ∧ chain.getLast? = some dst := by
  have key := searchLoop_invariant w dst
    (fun e => e.2.head? = some src)
    (fun q => q.head? = some src ∧ q.getLast? = some dst)
    (by
      intro cur p n h1 _ _ _
      cases p with
      | nil => simp at h1
      | cons a p => simpa using h1)
    (by
      intro cur p h1 _
      cases p with
      | nil => simp at h1
      | cons a p =>
        refine ⟨by simpa using h1, ?_⟩
        rw [List.getLast?_append]
        rfl)
    (searchBound w) (searchInit src dst)
    (by
      intro e he
      simp only [searchInit, List.mem_singleton] at he
      subst he
      rfl)
    (by
      intro q hq
      simp only [searchInit] at hq
      split at hq
      · rename_i hsd
        simp only [List.mem_singleton] at hq
        subst hq
        exact ⟨rfl, by simp [hsd]⟩
      · simp at hq)
  exact key.2 chain h

/-- For `src ≠ dst` no chain found repeats an einsum. -/
theorem FindEinsumDependencyChain_nodup_of_ne (w : FusedWorkload M S) (src dst : EinsumId)
    (hne : src ≠ dst) (chain : List EinsumId)
    (h : chain ∈ FindEinsumDependencyChain w src dst) : chain.Nodup := by
  have key := searchLoop_invariant w dst
    (fun e => e.2.Nodup ∧ dst ∉ e.2) List.Nodup
    (by
      rintro cur p n ⟨h1, h2⟩ _ hn1 hn2
      refine ⟨?_, ?_⟩
      · rw [List.nodup_append]
        exact ⟨h1, List.nodup_singleton n, by
          intro a ha hb
          simp only [List.mem_singleton] at hb
          subst hb
          exact hn2 ha⟩
      · simp only [List.mem_append, List.mem_singleton, not_or]
        exact ⟨h2, fun hcon => hn1 hcon.symm⟩)
    (by
      rintro cur p ⟨h1, h2⟩ _
      rw [List.nodup_append]
      exact ⟨h1, List.nodup_singleton dst, by
        intro a ha hb
        simp only [List.mem_singleton] at hb
        subst hb
        exact h2 ha⟩)
    (searchBound w) (searchInit src dst)
    (by
      intro e he
      simp only [searchInit, List.mem_singleton] at he
      subst he
      exact ⟨List.nodup_singleton src, by simpa using fun hcon => hne hcon.symm⟩)
    (by
      intro q hq
      simp [searchInit, hne] at hq)
  exact key.2 chain h

/-- A run long enough to empty the stack records every chain already in
`result` and every completion of every stack entry. -/
theorem searchLoop_complete (w : FusedWorkload M S) (dst : EinsumId) :
    ∀ (n : Nat) (st : SearchState), stackWeight w st.1 ≤ n →
      (∀ q ∈ st.2, q ∈ (searchLoop w dst n st).2) ∧
      (∀ e ∈ st.1, ∀ q, Completes w dst e.1 e.2 q → q ∈ (searchLoop w dst n st).2) := by
  intro n
  induction n with
  | zero =>
    rintro ⟨stack, result⟩ h
    cases stack with
    | nil => exact ⟨fun q hq => hq, fun e he => absurd he (List.not_mem_nil e)⟩
    | cons top rest =>
      have := pathWeight_pos w top.2
      simp [stackWeight] at h
      omega
  | succ n ih =>
    rintro ⟨stack, result⟩ h
    cases stack with
    | nil => exact ⟨fun q hq => hq, fun e he => absurd he (List.not_mem_nil e)⟩
    | cons top rest =>
      obtain ⟨cur, p⟩ := top
      have hw : stackWeight w (visitEinsum w dst cur p (rest, result)).1 ≤ n := by
        rw [visitEinsum_eq]
        simp only [stackWeight_append]
        have h1 := stackWeight_pushed w dst cur p
        have h2 : stackWeight w ((cur, p) :: rest) = pathWeight w p + stackWeight w rest := by
          simp [stackWeight]
        simp only [h2] at h
        omega
      obtain ⟨ih1, ih2⟩ := ih _ hw
      simp only [searchLoop]
      rw [visitEinsum_eq] at ih1 ih2 ⊢
      refine ⟨fun q hq => ih1 q (List.mem_append_left _ hq), ?_⟩
      intro e he q hq
      rcases List.mem_cons.1 he with rfl | he
      · cases hq with
        | hit _ _ hd =>
          exact ih1 _ (List.mem_append_right _ (mem_recorded.2 ⟨hd, rfl⟩))
        | ext _ _ n' _ hn1 hn2 hn3 hq' =>
          exact ih2 (n', p ++ [n'])
            (List.mem_append_left _ (mem_pushed.2 ⟨n', hn1, hn2, hn3, rfl⟩)) q hq'
      · exact ih2 e (List.mem_append_right _ he) q hq

/-- A duplicate-free linked continuation `rest` of the path `p` that ends in
`dst` is a completion of the stack entry `(cur, p)`. -/
theorem Completes_of_simple (w : FusedWorkload M S) (dst : EinsumId) :
    ∀ (rest p : List EinsumId) (cur : EinsumId), p.getLast? = some cur →
      Linked w (p ++ rest) → (p ++ rest).Nodup → rest.getLast? = some dst →
      Completes w dst cur p (p ++ rest) := by
  intro rest
  induction rest with
  | nil => intro p cur _ _ _ h; simp at h
  | cons n rest ih =>
    intro p cur hlast hlink hnd hdst
    have hlen : 0 < p.length := by
      cases p with
      | nil => simp at hlast
      | cons a p => simp
    have hedge : DependsOn w cur n := by
      apply hlink (p.length - 1) cur n
      · rw [List.getElem?_append_left (by omega), ← List.getLast?_eq_getElem?]
        exact hlast
      · rw [List.getElem?_append_right (by omega)]
        have : p.length - 1 + 1 - p.length = 0 := by omega
        rw [this]
        simp
    have hnp : n ∉ p := by
      intro hcon
      rw [List.nodup_append] at hnd
      exact hnd.2.2 hcon (List.mem_cons_self _ _)
    cases rest with
    | nil =>
      simp only [List.getLast?_singleton, Option.some.injEq] at hdst
      subst hdst
      exact Completes.hit cur p ((mem_neighbors w cur n).2 hedge)
    | cons m rest =>
      have hn_ne : n ≠ dst := by
        intro hcon
        have hmem : dst ∈ m :: rest := by
          have h1 : (m :: rest).getLast? = some dst := by
            simpa [List.getLast?_cons_cons] using hdst
          exact List.mem_of_getLast?_eq_some h1
        rw [List.nodup_append] at hnd
        have h2 := (List.nodup_cons.1 hnd.2.1).1
        exact h2 (hcon ▸ hmem)
      have heq : p ++ n :: m :: rest = (p ++ [n]) ++ (m :: rest) := by simp
      rw [heq]
      apply Completes.ext cur p n _ ((mem_neighbors w cur n).2 hedge) hn_ne hnp
      apply ih (p ++ [n]) n (by simp)
      · rw [← heq]; exact hlink
      · rw [← heq]; exact hnd
      · simpa [List.getLast?_cons_cons] using hdst

/-- Every simple producer-consumer path from `src` to `dst` is found. -/
theorem FindEinsumDependencyChain_complete (w : FusedWorkload M S) (src dst : EinsumId)
    (path : List EinsumId) (hnd : path.Nodup) (hhead : path.head? = some src)
    (hlast : path.getLast? = some dst) (hlink : Linked w path) :
    path ∈ FindEinsumDependencyChain w src dst := by
  obtain ⟨h1, h2⟩ := searchLoop_complete w dst (searchBound w) (searchInit src dst)
    (stackWeight_init_le w src dst)
  cases path with
  | nil => simp at hhead
  | cons a rest =>
    simp only [List.head?_cons, Option.some.injEq] at hhead
    subst hhead
    cases rest with
    | nil =>
      simp only [List.getLast?_singleton, Option.some.injEq] at hlast
      subst hlast
      exact h1 _ (by simp [searchInit])
    | cons b rest =>
      apply h2 (a, [a]) (by simp [searchInit])
      exact Completes_of_simple w dst (b :: rest) [a] a rfl hlink hnd
        (by simpa [List.getLast?_cons_cons] using hlast)

/-! ## Sets and the equivalence cache -/

theorem mem_setInsert (x a : Nat) (l : List Nat) : a ∈ setInsert x l ↔ a = x ∨ a ∈ l := by
  induction l with
  | nil => simp [setInsert]
  | cons y ys ih =>
    unfold setInsert
    split
    · simp
    · split
      · rename_i hxy
        subst hxy
        simp
      · simp only [List.mem_cons, ih]
        tauto

theorem setInsert_ne_nil (x : Nat) (l : List Nat) : setInsert x l ≠ [] := by
  cases l with
  | nil => simp [setInsert]
  | cons y ys =>
    unfold setInsert
    split
    · simp
    · split <;> simp

theorem mem_foldl_setInsert (xs : List Nat) :
    ∀ (s : List Nat) (a : Nat), a ∈ xs.foldl (fun s e => setInsert e s) s ↔ a ∈ xs ∨ a ∈ s := by
  induction xs with
  | nil => intro s a; simp
  | cons x xs ih =>
    intro s a
    rw [List.foldl_cons, ih, mem_setInsert]
    simp only [List.mem_cons]
    tauto

theorem lookup_filter_ne (memo : EquivalentDimMemo) (key k : DimensionId) (h : k ≠ key) :
    (memo.filter (fun kv => decide (kv.1 ≠ key))).lookup k = memo.lookup k := by
  induction memo with
  | nil => rfl
  | cons kv memo ih =>
    obtain ⟨a, b⟩ := kv
    by_cases hak : a = key
    · subst hak
      have hne : (k == a) = false := by simpa using h
      simp only [List.filter_cons, List.lookup_cons, hne, ne_eq, not_true_eq_false,
        decide_False, Bool.false_eq_true, if_false]
      exact ih
    · by_cases hka : k = a
      · subst hka
        simp [List.filter_cons, hak]
      · have hne : (k == a) = false := by simpa using hka
        simp only [List.filter_cons, ne_eq, hak, not_false_eq_true, decide_True, if_true,
          List.lookup_cons, hne]
        exact ih

theorem lookup_memoAssign (memo : EquivalentDimMemo) (key k : DimensionId)
    (value : List DimensionId) :
    (memoAssign memo key value).lookup k = if k = key then some value else memo.lookup k := by
  unfold memoAssign
  by_cases h : k = key
  · subst h
    simp
  · have hne : (k == key) = false := by simpa using h
    rw [List.lookup_cons, hne, lookup_filter_ne memo key k h]
    simp [h]

/-- The propagation loop succeeds when the cache holds the class under the
queried dimension, and leaves the class under that dimension and under every
rank it visited. -/
theorem propagateClass_spec (d : DimensionId) (C : List DimensionId) :
    ∀ (ranks : List DimensionId) (memo : EquivalentDimMemo), memo.lookup d = some C →
      ∃ memo', propagateClass d ranks memo = .ok memo' ∧
        (∀ k, memo.lookup k = some C → memo'.lookup k = some C) ∧
        (∀ r ∈ ranks, memo'.lookup r = some C) := by
  intro ranks
  induction ranks with
  | nil => intro memo _; exact ⟨memo, rfl, fun _ hk => hk, fun r hr => absurd hr (List.not_mem_nil r)⟩
  | cons rank rest ih =>
    intro memo hd
    by_cases hr : rank = d
    · obtain ⟨memo', h1, h2, h3⟩ := ih memo hd
      refine ⟨memo', by simp [propagateClass, hr, h1], h2, ?_⟩
      intro r hmem
      rcases List.mem_cons.1 hmem with rfl | hmem
      · rw [hr]; exact h2 d hd
      · exact h3 r hmem
    · have hd1 : (memoAssign memo rank C).lookup d = some C := by
        rw [lookup_memoAssign]
        simp [Ne.symm hr, hd]
      obtain ⟨memo', h1, h2, h3⟩ := ih (memoAssign memo rank C) hd1
      refine ⟨memo', ?_, ?_, ?_⟩
      · simp [propagateClass, hr, hd, mapAt, bind, Except.bind, h1]
      · intro k hk
        apply h2
        rw [lookup_memoAssign]
        split
        · rfl
        · exact hk
      · intro r hmem
        rcases List.mem_cons.1 hmem with rfl | hmem
        · apply h2
          rw [lookup_memoAssign]
          simp
        · exact h3 r hmem

/-- A query that finds no cache entry returns the class it computed and leaves
it in the cache under every member. -/
theorem EquivalentDimensions_propagates (lib : Isl M S) (w : FusedWorkload M S)
    (memo memo' : EquivalentDimMemo) (einsum : EinsumId) (einsum_dim : DimensionId)
    (C : List DimensionId) (hmemo : memo.lookup einsum_dim = none)
    (h : EquivalentDimensions lib w memo einsum einsum_dim = .ok (C, memo')) :
    memo'.lookup einsum_dim = some C ∧ ∀ r ∈ C, memo'.lookup r = some C := by
  unfold EquivalentDimensions at h
  rw [hmemo] at h
  simp only [bind, Except.bind] at h
  cases hidx : mapAt (w.EinsumDimToIdx einsum einsum_dim) with
  | error e => rw [hidx] at h; simp at h
  | ok dim_idx =>
    rw [hidx] at h
    simp only at h
    cases hranks : List.foldlM (equivalentOver lib w einsum dim_idx) [] w.EinsumIdToName with
    | error e => rw [hranks] at h; simp at h
    | ok ranks =>
      rw [hranks] at h
      simp only at h
      have hd : (memoAssign memo einsum_dim ranks).lookup einsum_dim = some ranks := by
        rw [lookup_memoAssign]; simp
      obtain ⟨memo2, h1, h2, h3⟩ := propagateClass_spec einsum_dim ranks ranks _ hd
      rw [h1] at h
      simp only [h2 einsum_dim hd, mapAt, pure, Except.pure, Except.ok.injEq, Prod.mk.injEq] at h
      obtain ⟨rfl, rfl⟩ := h
      exact ⟨h2 einsum_dim hd, h3⟩

/-! ## Relevance on einsums without a chain back to themselves -/

/-- When the only chain from the einsum to itself is the trivial one, the
projected accesses of a data space it reads or writes are its own access
relation. -/
theorem GetProjectedAccesses_of_trivial_chain (lib : Isl M S) (w : FusedWorkload M S)
    (einsum : EinsumId) (dspace : DataSpaceId)
    (hchains : FindEinsumDependencyChain w einsum einsum = [[einsum]])
    (htouch : dspace ∈ w.TensorsReadByEinsum einsum ∨ dspace ∈ w.TensorsWrittenByEinsum einsum) :
    GetProjectedAccesses lib w einsum dspace = .ok [w.access_relation einsum dspace] := by
  have hsrc : sourceEinsums w einsum dspace = .ok [einsum] := by
    by_cases hr : dspace ∈ w.TensorsReadByEinsum einsum
    · simp [sourceEinsums, hr, setInsert, pure, Except.pure]
    · have hw : dspace ∈ w.TensorsWrittenByEinsum einsum := htouch.resolve_left hr
      simp [sourceEinsums, hr, hw, setInsert, pure, Except.pure]
  have hacc : w.Accesses einsum dspace = .ok (w.access_relation einsum dspace) := by
    simp [FusedWorkload.Accesses, htouch]
  unfold GetProjectedAccesses
  rw [hsrc]
  simp only [bind, Except.bind]
  rw [List.foldlM_cons]
  unfold projectAccessesFrom
  rw [hchains, List.foldlM_cons]
  simp [projectAccessChain, hacc, walkAccesses, bind, Except.bind, pure, Except.pure]

/-- When the einsum neither reads nor writes the data space, which has no
reader einsum and no writer, the construction of the source einsums reaches the
dereference of the empty optional at line 319, and so does the query. -/
theorem GetProjectedAccesses_of_absent_writer (lib : Isl M S) (w : FusedWorkload M S)
    (einsum : EinsumId) (dspace : DataSpaceId)
    (hr : dspace ∉ w.TensorsReadByEinsum einsum) (hw : dspace ∉ w.TensorsWrittenByEinsum einsum)
    (hre : w.ReaderEinsums dspace = []) (hwr : w.WriterEinsum dspace = none) :
    sourceEinsums w einsum dspace = .error .empty_optional ∧
      GetProjectedAccesses lib w einsum dspace = .error .empty_optional := by
  have hsrc : sourceEinsums w einsum dspace = .error .empty_optional := by
    simp [sourceEinsums, hr, hw, hre, hwr, derefWriter, bind, Except.bind]
  refine ⟨hsrc, ?_⟩
  unfold GetProjectedAccesses
  rw [hsrc]
  rfl

/-- On such an einsum a directly relevant dimension is relevant. -/
theorem EinsumDimIsRelevantToTensor_of_direct (lib : Isl M S) (w : FusedWorkload M S)
    (einsum : EinsumId) (einsum_dim : DimensionId) (dspace : DataSpaceId)
    (hchains : FindEinsumDependencyChain w einsum einsum = [[einsum]])
    (hd : EinsumDimIsDirectlyRelevantToTensor lib w einsum einsum_dim dspace = .ok true) :
    EinsumDimIsRelevantToTensor lib w einsum einsum_dim dspace = .ok true := by
  unfold EinsumDimIsDirectlyRelevantToTensor at hd
  by_cases htouch : dspace ∈ w.TensorsReadByEinsum einsum ∨ dspace ∈ w.TensorsWrittenByEinsum einsum
  · have hacc : w.Accesses einsum dspace = .ok (w.access_relation einsum dspace) := by
      simp [FusedWorkload.Accesses, htouch]
    have hcond : (!decide (dspace ∈ w.TensorsReadByEinsum einsum)
        && !decide (dspace ∈ w.TensorsWrittenByEinsum einsum)) = false := by
      rcases htouch with h | h <;> simp [h]
    simp only [hcond, Bool.false_eq_true, if_false, hacc, bind, Except.bind] at hd
    unfold EinsumDimIsRelevantToTensor
    rw [GetProjectedAccesses_of_trivial_chain lib w einsum dspace hchains htouch]
    cases hidx : mapAt (w.EinsumDimToIdx einsum einsum_dim) with
    | error e => rw [hidx] at hd; simp at hd
    | ok dim_idx =>
      rw [hidx] at hd
      simp only [pure, Except.pure, Except.ok.injEq] at hd
      simp [bind, Except.bind, pure, Except.pure, hd]
  · have hcond : (!decide (dspace ∈ w.TensorsReadByEinsum einsum)
        && !decide (dspace ∈ w.TensorsWrittenByEinsum einsum)) = true := by
      simp only [not_or] at htouch
      simp [htouch.1, htouch.2]
    simp [hcond] at hd

/-! ## Memoized relevance sets -/

theorem collectRelevantDims_fold (test : DimensionId → Except Failure Bool) :
    ∀ (dims acc r : List DimensionId),
      dims.foldlM
        (fun relevant_dims einsum_dim => do
          let relevant ← test einsum_dim
          pure (if relevant then setInsert einsum_dim relevant_dims else relevant_dims))
        acc = .ok r →
      ∀ d, d ∈ r ↔ d ∈ acc ∨ (d ∈ dims ∧ test d = .ok true) := by
  intro dims
  induction dims with
  | nil =>
    intro acc r h d
    simp only [List.foldlM_nil, pure, Except.pure, Except.ok.injEq] at h
    subst h
    simp
  | cons x xs ih =>
    intro acc r h d
    rw [List.foldlM_cons] at h
    cases hx : test x with
    | error e => simp [hx, bind, Except.bind] at h
    | ok b =>
      simp only [hx, bind, Except.bind, pure, Except.pure] at h
      rw [ih _ r h d]
      cases b with
      | true =>
        simp only [if_true, mem_setInsert, List.mem_cons]
        constructor
        · rintro ((rfl | h1) | ⟨h1, h2⟩)
          · exact Or.inr ⟨Or.inl rfl, hx⟩
          · exact Or.inl h1
          · exact Or.inr ⟨Or.inr h1, h2⟩
        · rintro (h1 | ⟨rfl | h1, h2⟩)
          · exact Or.inl (Or.inr h1)
          · exact Or.inl (Or.inl rfl)
          · exact Or.inr ⟨h1, h2⟩
      | false =>
        simp only [Bool.false_eq_true, if_false, List.mem_cons]
        constructor
        · rintro (h1 | ⟨h1, h2⟩)
          · exact Or.inl h1
          · exact Or.inr ⟨Or.inr h1, h2⟩
        · rintro (h1 | ⟨rfl | h1, h2⟩)
          · exact Or.inl h1
          · rw [hx] at h2; simp at h2
          · exact Or.inr ⟨h1, h2⟩

/-- The set collected holds exactly the dimensions that pass the test. -/
theorem mem_collectRelevantDims (test : DimensionId → Except Failure Bool)
    (dims r : List DimensionId) (h : collectRelevantDims test dims = .ok r) (d : DimensionId) :
    d ∈ r ↔ d ∈ dims ∧ test d = .ok true := by
  have := collectRelevantDims_fold test dims [] r h d
  simpa using this

theorem collectRelevantDims_fold_ok (test : DimensionId → Except Failure Bool) :
    ∀ (dims acc : List DimensionId), (∀ d ∈ dims, ∃ b, test d = .ok b) →
      ∃ r, dims.foldlM
        (fun relevant_dims einsum_dim => do
          let relevant ← test einsum_dim
          pure (if relevant then setInsert einsum_dim relevant_dims else relevant_dims))
        acc = .ok r := by
  intro dims
  induction dims with
  | nil => intro acc _; exact ⟨acc, rfl⟩
  | cons x xs ih =>
    intro acc h
    obtain ⟨b, hb⟩ := h x (List.mem_cons_self _ _)
    rw [List.foldlM_cons]
    simp only [hb, bind, Except.bind, pure, Except.pure]
    exact ih _ (fun d hd => h d (List.mem_cons_of_mem _ hd))

/-- The collection returns a set when the test returns for every dimension. -/
theorem collectRelevantDims_ok (test : DimensionId → Except Failure Bool)
    (dims : List DimensionId) (h : ∀ d ∈ dims, ∃ b, test d = .ok b) :
    ∃ r, collectRelevantDims test dims = .ok r :=
  collectRelevantDims_fold_ok test dims [] h

theorem lookup_memoEmplace (memo : RelevantDimMemo) (key k : EinsumId × DataSpaceId)
    (value : List DimensionId) (h : memo.lookup key = none) :
    (memoEmplace memo key value).lookup k = if k = key then some value else memo.lookup k := by
  unfold memoEmplace
  rw [h]
  simp only [List.lookup_cons]
  by_cases hk : k = key
  · subst hk; simp
  · have : (k == key) = false := by simpa using hk
    simp [this, hk]

/-- What a memoized query returns and how it leaves the cache. -/
theorem memoizedDims_spec (compute : Except Failure (List DimensionId)) (memo : RelevantDimMemo)
    (key : EinsumId × DataSpaceId) :
    (∀ dims, memo.lookup key = some dims → memoizedDims compute memo key = .ok (dims, memo)) ∧
    (memo.lookup key = none → ∀ dims, compute = .ok dims →
      memoizedDims compute memo key = .ok (dims, (key, dims) :: memo)) ∧
    (memo.lookup key = none → ∀ e, compute = .error e → memoizedDims compute memo key = .error e) := by
  refine ⟨?_, ?_, ?_⟩
  · intro dims h
    simp [memoizedDims, h]
  · intro h dims hc
    have h2 : (memoEmplace memo key dims) = (key, dims) :: memo := by
      simp [memoEmplace, h]
    simp [memoizedDims, h, hc, bind, Except.bind, h2, mapAt, pure, Except.pure]
  · intro h e hc
    simp [memoizedDims, h, hc, bind, Except.bind]

theorem memoizedDims_consistent
    (compute : EinsumId × DataSpaceId → Except Failure (List DimensionId))
    (memo memo' : RelevantDimMemo) (key : EinsumId × DataSpaceId) (dims : List DimensionId)
    (hc : MemoConsistent compute memo)
    (h : memoizedDims (compute key) memo key = .ok (dims, memo')) :
    MemoConsistent compute memo' ∧ compute key = .ok dims ∧ memo'.lookup key = some dims ∧
      (∀ k v, memo.lookup k = some v → memo'.lookup k = some v) := by
  obtain ⟨h1, h2, h3⟩ := memoizedDims_spec (compute key) memo key
  cases hl : memo.lookup key with
  | some v =>
    rw [h1 v hl] at h
    simp only [Except.ok.injEq, Prod.mk.injEq] at h
    obtain ⟨rfl, rfl⟩ := h
    exact ⟨hc, hc key v hl, hl, fun k v' hk => hk⟩
  | none =>
    cases hcmp : compute key with
    | error e =>
      rw [h3 hl e hcmp] at h
      simp at h
    | ok r =>
      rw [h2 hl r hcmp] at h
      simp only [Except.ok.injEq, Prod.mk.injEq] at h
      obtain ⟨rfl, rfl⟩ := h
      have hlk : ∀ k, ((key, r) :: memo).lookup k = if k = key then some r else memo.lookup k := by
        intro k
        rw [List.lookup_cons]
        by_cases hk : k = key
        · subst hk; simp
        · have : (k == key) = false := by simpa using hk
          simp [this, hk]
      refine ⟨?_, rfl, by rw [hlk]; simp, ?_⟩
      · intro k v hk
        rw [hlk] at hk
        by_cases hkk : k = key
        · subst hkk
          simp only [if_true, Option.some.injEq] at hk
          subst hk
          exact hcmp
        · simp only [hkk, if_false] at hk
          exact hc k v hk
      · intro k v hk
        rw [hlk]
        by_cases hkk : k = key
        · subst hkk
          rw [hl] at hk
          simp at hk
        · simp [hkk, hk]

/-- On a consistent cache the memoized query has the outcome of the
computation it memoizes. -/
theorem memoizedDims_outcome
    (compute : EinsumId × DataSpaceId → Except Failure (List DimensionId))
    (memo : RelevantDimMemo) (key : EinsumId × DataSpaceId) (hc : MemoConsistent compute memo) :
    (memoizedDims (compute key) memo key).map Prod.fst = compute key := by
  obtain ⟨h1, h2, h3⟩ := memoizedDims_spec (compute key) memo key
  cases hl : memo.lookup key with
  | some v =>
    rw [h1 v hl, hc key v hl]
    rfl
  | none =>
    cases hcmp : compute key with
    | error e =>
      have h4 := h3 hl e hcmp
      rw [hcmp] at h4
      rw [h4]
      rfl
    | ok r =>
      have h4 := h2 hl r hcmp
      rw [hcmp] at h4
      rw [h4]
      rfl

theorem RelevantMemoReachable_consistent (lib : Isl M S) (w : FusedWorkload M S)
    (memo : RelevantDimMemo) (h : RelevantMemoReachable lib w memo) :
    MemoConsistent (relevantDims lib w) memo := by
  induction h with
  | fresh => intro key dims hk; simp at hk
  | query memo memo' einsum dspace dims _ hq ih =>
    exact (memoizedDims_consistent (relevantDims lib w) memo memo' (einsum, dspace) dims ih hq).1

theorem DirectMemoReachable_consistent (lib : Isl M S) (w : FusedWorkload M S)
    (memo : RelevantDimMemo) (h : DirectMemoReachable lib w memo) :
    MemoConsistent (directlyRelevantDims lib w) memo := by
  induction h with
  | fresh => intro key dims hk; simp at hk
  | query memo memo' einsum dspace dims _ hq ih =>
    exact (memoizedDims_consistent (directlyRelevantDims lib w) memo memo' (einsum, dspace) dims
      ih hq).1

/-! ## What a query leaves in the caches -/

/-- A memoized relevance query leaves every stored value as it is. -/
theorem memoizedDims_keeps (compute : Except Failure (List DimensionId))
    (memo memo' : RelevantDimMemo) (key : EinsumId × DataSpaceId) (dims : List DimensionId)
    (h : memoizedDims compute memo key = .ok (dims, memo')) :
    ∀ k v, memo.lookup k = some v → memo'.lookup k = some v := by
  obtain ⟨h1, h2, h3⟩ := memoizedDims_spec compute memo key
  intro k v hk
  cases hl : memo.lookup key with
  | some c =>
    rw [h1 c hl] at h
    simp only [Except.ok.injEq, Prod.mk.injEq] at h
    rw [← h.2]
    exact hk
  | none =>
    cases hcmp : compute with
    | error e =>
      rw [h3 hl e hcmp] at h
      simp at h
    | ok r =>
      rw [h2 hl r hcmp] at h
      simp only [Except.ok.injEq, Prod.mk.injEq] at h
      rw [← h.2, List.lookup_cons]
      have hne : k ≠ key := by
        rintro rfl
        rw [hl] at hk
        simp at hk
      have : (k == key) = false := by simpa using hne
      rw [this]
      exact hk

/-- The propagation loop changes the cache only under the ranks it visits. -/
theorem propagateClass_frame (d : DimensionId) :
    ∀ (ranks : List DimensionId) (memo memo' : EquivalentDimMemo),
      propagateClass d ranks memo = .ok memo' →
      ∀ k, k ∉ ranks → memo'.lookup k = memo.lookup k := by
  intro ranks
  induction ranks with
  | nil =>
    intro memo memo' h k _
    simp only [propagateClass, Except.ok.injEq] at h
    rw [h]
  | cons rank rest ih =>
    intro memo memo' h k hk
    simp only [List.mem_cons, not_or] at hk
    unfold propagateClass at h
    by_cases hr : rank = d
    · simp only [hr, if_true] at h
      exact ih memo memo' h k hk.2
    · simp only [hr, if_false, bind, Except.bind] at h
      cases hl : mapAt (memo.lookup d) with
      | error e => rw [hl] at h; simp at h
      | ok cls =>
        rw [hl] at h
        simp only at h
        rw [ih _ memo' h k hk.2, lookup_memoAssign]
        simp [hk.1]

/-- A query that finds no cache entry assigns the class it computed to the
queried dimension and runs the propagation loop on it. -/
theorem EquivalentDimensions_uncached (lib : Isl M S) (w : FusedWorkload M S)
    (memo memo' : EquivalentDimMemo) (einsum : EinsumId) (einsum_dim : DimensionId)
    (C : List DimensionId) (hmemo : memo.lookup einsum_dim = none)
    (h : EquivalentDimensions lib w memo einsum einsum_dim = .ok (C, memo')) :
    ∃ dim_idx, w.EinsumDimToIdx einsum einsum_dim = some dim_idx ∧
      w.EinsumIdToName.foldlM (equivalentOver lib w einsum dim_idx) [] = .ok C ∧
      propagateClass einsum_dim C (memoAssign memo einsum_dim C) = .ok memo' := by
  unfold EquivalentDimensions at h
  rw [hmemo] at h
  simp only [bind, Except.bind] at h
  cases hidx : w.EinsumDimToIdx einsum einsum_dim with
  | none => rw [hidx] at h; simp [mapAt] at h
  | some dim_idx =>
    rw [hidx] at h
    simp only [mapAt] at h
    cases hranks : List.foldlM (equivalentOver lib w einsum dim_idx) [] w.EinsumIdToName with
    | error e => rw [hranks] at h; simp at h
    | ok ranks =>
      rw [hranks] at h
      simp only at h
      have hd : (memoAssign memo einsum_dim ranks).lookup einsum_dim = some ranks := by
        rw [lookup_memoAssign]; simp
      obtain ⟨memo2, h1, h2, _⟩ := propagateClass_spec einsum_dim ranks ranks _ hd
      rw [h1] at h
      simp only [h2 einsum_dim hd, pure, Except.pure, Except.ok.injEq, Prod.mk.injEq] at h
      obtain ⟨rfl, rfl⟩ := h
      exact ⟨dim_idx, rfl, hranks, h1⟩

/-- An equivalence query keeps the value stored under a key, unless it computes
a class that holds the key: then that class is stored under the key. -/
theorem EquivalentDimensions_keeps_or_overwrites (lib : Isl M S) (w : FusedWorkload M S)
    (memo memo' : EquivalentDimMemo) (einsum : EinsumId) (einsum_dim : DimensionId)
    (C : List DimensionId)
    (h : EquivalentDimensions lib w memo einsum einsum_dim = .ok (C, memo'))
    (k : DimensionId) (v : List DimensionId) (hk : memo.lookup k = some v) :
    (memo.lookup einsum_dim = none ∧ k ∈ C → memo'.lookup k = some C) ∧
      (¬ (memo.lookup einsum_dim = none ∧ k ∈ C) → memo'.lookup k = some v) := by
  cases hl : memo.lookup einsum_dim with
  | some c =>
    have h2 : EquivalentDimensions lib w memo einsum einsum_dim = .ok (c, memo) := by
      unfold EquivalentDimensions
      rw [hl]
    rw [h2] at h
    simp only [Except.ok.injEq, Prod.mk.injEq] at h
    refine ⟨fun hc => absurd hc.1 (by simp), fun _ => ?_⟩
    rw [← h.2]
    exact hk
  | none =>
    obtain ⟨h1, h2⟩ := EquivalentDimensions_propagates lib w memo memo' einsum einsum_dim C hl h
    obtain ⟨_, _, _, h3⟩ := EquivalentDimensions_uncached lib w memo memo' einsum einsum_dim C hl h
    refine ⟨fun hc => h2 k hc.2, fun hc => ?_⟩
    have hkC : k ∉ C := fun hmem => hc ⟨rfl, hmem⟩
    have hne : k ≠ einsum_dim := by
      rintro rfl
      rw [hl] at hk
      simp at hk
    rw [propagateClass_frame einsum_dim C _ memo' h3 k hkC, lookup_memoAssign]
    simp [hne, hk]

/-! ## The coefficient test -/

/-- `equivalentStep` is the chain of filters of lines 201-241 followed by the
coefficient test on the projected map. -/
theorem equivalentStep_eq (lib : Isl M S) (w : FusedWorkload M S) (dim_idx : Nat)
    (equivalent_ranks : List DimensionId) (it : M × EinsumId) :
    equivalentStep lib w dim_idx equivalent_ranks it
      = if lib.n_basic_map it.1 ≠ 1 then .ok equivalent_ranks
        else if lib.is_single_valued (projectToDim lib dim_idx it.1) = false then
          .ok equivalent_ranks
        else if lib.multi_pw_aff_size (projectToDim lib dim_idx it.1) ≠ 1 then
          .error .unreachable
        else if lib.pw_aff_n_piece (projectToDim lib dim_idx it.1) ≠ 1 then
          .ok equivalent_ranks
        else coefficientTest w it.2
          (lib.aff_coefficients (projectToDim lib dim_idx it.1)) equivalent_ranks := by
  rfl

theorem coefficientLoop_zeros :
    ∀ (coefs : List Int) (i : Nat) (st : Bool × Bool × Nat), (∀ c ∈ coefs, c = 0) →
      coefficientLoop coefs i st = st := by
  intro coefs
  induction coefs with
  | nil => intro i st _; rfl
  | cons c rest ih =>
    rintro i ⟨has, found, pot⟩ h
    have hc : c = 0 := h c (List.mem_cons_self _ _)
    subst hc
    simp only [coefficientLoop]
    simp only [zero_ne_one, false_and, if_false, ne_eq, not_true_eq_false]
    exact ih _ _ (fun c' hc' => h c' (List.mem_cons_of_mem _ hc'))

theorem coefficientLoop_unit :
    ∀ (coefs : List Int) (k i : Nat) (has : Bool) (pot : Nat), coefs[k]? = some 1 →
      (∀ j c, j ≠ k → coefs[j]? = some c → c = 0) →
      coefficientLoop coefs i (has, false, pot) = (has, true, i + k) := by
  intro coefs
  induction coefs with
  | nil => intro k i has pot h; simp at h
  | cons c rest ih =>
    intro k i has pot hk hz
    cases k with
    | zero =>
      simp only [List.getElem?_cons_zero, Option.some.injEq] at hk
      subst hk
      simp only [coefficientLoop, true_and, if_true]
      rw [coefficientLoop_zeros]
      · rfl
      · intro c' hc'
        obtain ⟨j, hj⟩ := List.getElem?_of_mem hc'
        exact hz (j + 1) c' (by omega) (by simpa using hj)
    | succ k =>
      have hc : c = 0 := hz 0 c (by omega) (by simp)
      subst hc
      simp only [List.getElem?_cons_succ] at hk
      simp only [coefficientLoop, zero_ne_one, false_and, if_false, ne_eq, not_true_eq_false]
      rw [ih k (i + 1) has pot hk (fun j c' hj hc' => hz (j + 1) c' (by omega) (by simpa using hc'))]
      congr 2
      omega

theorem coefficientLoop_false :
    ∀ (coefs : List Int) (i : Nat) (found : Bool) (pot : Nat),
      (coefficientLoop coefs i (false, found, pot)).1 = false := by
  intro coefs
  induction coefs with
  | nil => intro i found pot; rfl
  | cons c rest ih =>
    intro i found pot
    simp only [coefficientLoop]
    split
    · exact ih _ _ _
    · split
      · exact ih _ _ _
      · split
        · exact ih _ _ _
        · exact ih _ _ _

theorem coefficientLoop_found_one :
    ∀ (coefs : List Int) (i : Nat) (has : Bool) (pot : Nat), (1 : Int) ∈ coefs →
      (coefficientLoop coefs i (has, true, pot)).1 = false := by
  intro coefs
  induction coefs with
  | nil => intro i has pot h; simp at h
  | cons c rest ih =>
    intro i has pot h
    by_cases hc : c = 1
    · subst hc
      simp only [coefficientLoop]
      simp only [Bool.true_eq_false, and_false, if_false, and_self, if_true]
      exact coefficientLoop_false _ _ _ _
    · have hrest : (1 : Int) ∈ rest := by
        rcases List.mem_cons.1 h with h1 | h1
        · exact absurd h1.symm hc
        · exact h1
      simp only [coefficientLoop, hc, false_and, if_false]
      split
      · exact coefficientLoop_false _ _ _ _
      · exact ih _ _ _ hrest

/-- Two coefficients equal to 1 reject the candidate. -/
theorem coefficientLoop_two_ones :
    ∀ (coefs : List Int) (a b i : Nat) (st : Bool × Bool × Nat), a < b →
      coefs[a]? = some 1 → coefs[b]? = some 1 → (coefficientLoop coefs i st).1 = false := by
  intro coefs
  induction coefs with
  | nil => intro a b i st _ h; simp at h
  | cons c rest ih =>
    rintro a b i ⟨has, found, pot⟩ hab ha hb
    cases b with
    | zero => omega
    | succ b =>
      simp only [List.getElem?_cons_succ] at hb
      have hb' : (1 : Int) ∈ rest := List.getElem?_mem hb
      cases a with
      | zero =>
        simp only [List.getElem?_cons_zero, Option.some.injEq] at ha
        subst ha
        cases found with
        | false =>
          simp only [coefficientLoop, and_self, if_true]
          exact coefficientLoop_found_one _ _ _ _ hb'
        | true =>
          simp only [coefficientLoop, Bool.true_eq_false, and_false, if_false, and_self, if_true]
          exact coefficientLoop_false _ _ _ _
      | succ a =>
        simp only [List.getElem?_cons_succ] at ha
        simp only [coefficientLoop]
        split
        · exact ih a b _ _ (by omega) ha hb
        · split
          · exact ih a b _ _ (by omega) ha hb
          · split
            · exact ih a b _ _ (by omega) ha hb
            · exact ih a b _ _ (by omega) ha hb

/-- A coefficient that is neither 0 nor 1 rejects the candidate. -/
theorem coefficientLoop_other :
    ∀ (coefs : List Int) (i : Nat) (st : Bool × Bool × Nat) (c : Int), c ∈ coefs →
      c ≠ 0 → c ≠ 1 → (coefficientLoop coefs i st).1 = false := by
  intro coefs
  induction coefs with
  | nil => intro i st c h; simp at h
  | cons x rest ih =>
    rintro i ⟨has, found, pot⟩ c hc h0 h1
    rcases List.mem_cons.1 hc with rfl | hc
    · simp only [coefficientLoop, h1, false_and, if_false, ne_eq, h0, not_false_eq_true, if_true]
      exact coefficientLoop_false _ _ _ _
    · simp only [coefficientLoop]
      split
      · exact ih _ _ c hc h0 h1
      · split
        · exact ih _ _ c hc h0 h1
        · split
          · exact ih _ _ c hc h0 h1
          · exact ih _ _ c hc h0 h1

theorem Aff.readCoefficients_eq (p_aff : Aff) : p_aff.readCoefficients = p_aff.coefficients := by
  apply List.ext_getElem?
  intro i
  simp only [Aff.readCoefficients, Aff.dim_in, Aff.get_coefficient_val, List.getElem?_map,
    List.getElem?_range']
  by_cases h : i < p_aff.coefficients.length
  · rw [List.getElem?_range h]
    simp [Aff.get_coefficient_val, List.getD_eq_getElem?_getD, List.getElem?_eq_getElem h]
  · rw [List.getElem?_eq_none (by simpa using h), List.getElem?_eq_none (by simpa using h)]
    rfl

/-! ## The projected accesses use composition and reversal only -/

theorem walkAccesses_congr (lib lib' : Isl M S) (w : FusedWorkload M S) (src back : EinsumId)
    (h1 : lib'.apply_range = lib.apply_range) (h2 : lib'.reverse = lib.reverse) :
    ∀ (chain : List EinsumId) (accesses : M) (cur_tensor : DataSpaceId) (accesses_list : List M),
      walkAccesses lib' w src back chain accesses cur_tensor accesses_list
        = walkAccesses lib w src back chain accesses cur_tensor accesses_list := by
  intro chain
  induction chain with
  | nil => intro _ _ _; rfl
  | cons e rest ih =>
    intro accesses cur_tensor accesses_list
    simp only [walkAccesses, h1, h2, ih]

theorem GetProjectedAccesses_congr (lib lib' : Isl M S) (w : FusedWorkload M S)
    (h1 : lib'.apply_range = lib.apply_range) (h2 : lib'.reverse = lib.reverse)
    (einsum : EinsumId) (dspace : DataSpaceId) :
    GetProjectedAccesses lib' w einsum dspace = GetProjectedAccesses lib w einsum dspace := by
  have hchain : ∀ src, projectAccessChain lib' w dspace src = projectAccessChain lib w dspace src := by
    intro src
    funext accesses_list chain
    simp only [projectAccessChain, walkAccesses_congr lib lib' w src _ h1 h2]
  have hfrom : projectAccessesFrom lib' w einsum dspace = projectAccessesFrom lib w einsum dspace := by
    funext accesses_list src
    simp only [projectAccessesFrom, hchain]
  simp only [GetProjectedAccesses, hfrom]

/-- The relevance test is the involvement test over the whole list of projected
accesses. -/
theorem EinsumDimIsRelevantToTensor_iff (lib : Isl M S) (w : FusedWorkload M S)
    (einsum : EinsumId) (einsum_dim : DimensionId) (dspace : DataSpaceId) (dim_idx : Nat)
    (accesses_list : List M) (hidx : w.EinsumDimToIdx einsum einsum_dim = some dim_idx)
    (hacc : GetProjectedAccesses lib w einsum dspace = .ok accesses_list) :
    EinsumDimIsRelevantToTensor lib w einsum einsum_dim dspace = .ok true ↔
      ∃ a ∈ accesses_list, lib.involves_dims_in a dim_idx = true := by
  simp [EinsumDimIsRelevantToTensor, hidx, hacc, mapAt, bind, Except.bind, pure, Except.pure]

/-! ## Iterations of the search beyond the bound -/

theorem searchLoop_succ_of_nil (w : FusedWorkload M S) (dst : EinsumId) :
    ∀ (n : Nat) (st : SearchState), (searchLoop w dst n st).1 = [] →
      searchLoop w dst (n + 1) st = searchLoop w dst n st := by
  intro n
  induction n with
  | zero =>
    rintro ⟨stack, result⟩ h
    simp only [searchLoop] at h
    subst h
    rfl
  | succ n ih =>
    rintro ⟨stack, result⟩ h
    cases stack with
    | nil => rfl
    | cons top rest =>
      obtain ⟨cur, p⟩ := top
      simp only [searchLoop] at h ⊢
      exact ih _ h

theorem searchLoop_stable (w : FusedWorkload M S) (dst : EinsumId) (n : Nat) (st : SearchState)
    (h : (searchLoop w dst n st).1 = []) :
    ∀ k, searchLoop w dst (n + k) st = searchLoop w dst n st := by
  intro k
  induction k with
  | zero => rfl
  | succ k ih =>
    have h2 : (searchLoop w dst (n + k) st).1 = [] := by rw [ih]; exact h
    rw [← Nat.add_assoc, searchLoop_succ_of_nil w dst (n + k) st h2, ih]

/-! ## The chains from an einsum to itself -/

/-- The loop leaves the chains already in `result` at the front and appends
chains with the property `R`. -/
theorem searchLoop_result_prefix (w : FusedWorkload M S) (dst : EinsumId)
    (I : StackEntry → Prop) (R : List EinsumId → Prop)
    (hpush : ∀ cur p n, I (cur, p) → n ∈ neighbors w cur → n ≠ dst → n ∉ p → I (n, p ++ [n]))
    (hhit : ∀ cur p, I (cur, p) → dst ∈ neighbors w cur → R (p ++ [dst])) :
    ∀ (n : Nat) (st : SearchState), (∀ e ∈ st.1, I e) →
      ∃ X, (searchLoop w dst n st).2 = st.2 ++ X ∧ ∀ q ∈ X, R q := by
  intro n
  induction n with
  | zero => intro st _; exact ⟨[], by simp [searchLoop], fun q hq => absurd hq (List.not_mem_nil q)⟩
  | succ n ih =>
    rintro ⟨stack, result⟩ h1
    cases stack with
    | nil => exact ⟨[], by simp [searchLoop], fun q hq => absurd hq (List.not_mem_nil q)⟩
    | cons top rest =>
      obtain ⟨cur, p⟩ := top
      simp only [searchLoop]
      have hI : ∀ e ∈ (visitEinsum w dst cur p (rest, result)).1, I e := by
        intro e he
        rw [visitEinsum_eq] at he
        rcases List.mem_append.1 he with he | he
        · obtain ⟨n', hn1, hn2, hn3, rfl⟩ := mem_pushed.1 he
          exact hpush cur p n' (h1 _ (List.mem_cons_self _ _)) hn1 hn2 hn3
        · exact h1 _ (List.mem_cons_of_mem _ he)
      obtain ⟨X, hX1, hX2⟩ := ih _ hI
      rw [visitEinsum_eq] at hX1
      refine ⟨recorded dst p (neighbors w cur) ++ X, ?_, ?_⟩
      · rw [visitEinsum_eq, hX1, List.append_assoc]
      · intro q hq
        rcases List.mem_append.1 hq with hq | hq
        · obtain ⟨hd, rfl⟩ := mem_recorded.1 hq
          exact hhit cur p (h1 _ (List.mem_cons_self _ _)) hd
        · exact hX2 q hq

theorem Linked_tail (w : FusedWorkload M S) (a : EinsumId) (l : List EinsumId)
    (h : Linked w (a :: l)) : Linked w l := by
  intro i x y hx hy
  exact h (i + 1) x y (by simpa using hx) (by simpa using hy)

/-- A linked chain with at least two elements is a producer-consumer path from
its first to its last element. -/
theorem TransGen_of_Linked (w : FusedWorkload M S) :
    ∀ (l : List EinsumId) (a b c : EinsumId), Linked w (a :: b :: l) →
      (a :: b :: l).getLast? = some c → Relation.TransGen (DependsOn w) a c := by
  intro l
  induction l with
  | nil =>
    intro a b c h hc
    simp only [List.getLast?_cons_cons, List.getLast?_singleton, Option.some.injEq] at hc
    subst hc
    exact Relation.TransGen.single (h 0 a b rfl rfl)
  | cons x l ih =>
    intro a b c h hc
    have hab : DependsOn w a b := h 0 a b rfl rfl
    have hrest := ih b x c (Linked_tail w a _ h) (by simpa [List.getLast?_cons_cons] using hc)
    exact Relation.TransGen.head hab hrest

/-- The chains from `s` to `s`: the trivial chain first, then chains of at
least two elements that are linked and lead from `s` back to `s`. -/
theorem FindEinsumDependencyChain_self (w : FusedWorkload M S) (s : EinsumId) :
    ∃ X, FindEinsumDependencyChain w s s = [s] :: X ∧
      ∀ q ∈ X, ∃ b l, q = s :: b :: l ∧ Linked w q ∧ q.getLast? = some s := by
  obtain ⟨X, hX1, hX2⟩ := searchLoop_result_prefix w s
    (fun e => e.2.getLast? = some e.1 ∧ Linked w e.2 ∧ ∃ l, e.2 = s :: l)
    (fun q => ∃ b l, q = s :: b :: l ∧ Linked w q ∧ q.getLast? = some s)
    (by
      rintro cur p n ⟨h1, h2, l, hl⟩ hn _ _
      simp only at h1 h2 hl
      refine ⟨?_, Linked_append_singleton w _ cur n h2 h1 ((mem_neighbors w cur n).1 hn),
        l ++ [n], by simp [hl]⟩
      rw [List.getLast?_append]
      rfl)
    (by
      rintro cur p ⟨h1, h2, l, hl⟩ hd
      simp only at h1 h2 hl
      have hlink := Linked_append_singleton w _ cur s h2 h1 ((mem_neighbors w cur s).1 hd)
      have hlast : (p ++ [s]).getLast? = some s := by
        rw [List.getLast?_append]
        rfl
      subst hl
      cases l with
      | nil => exact ⟨s, [], by simp, hlink, hlast⟩
      | cons b l => exact ⟨b, l ++ [s], by simp, hlink, hlast⟩)
    (searchBound w) (searchInit s s)
    (by
      intro e he
      simp only [searchInit, List.mem_singleton] at he
      subst he
      exact ⟨rfl, Linked_singleton w s, [], rfl⟩)
  refine ⟨X, ?_, hX2⟩
  unfold FindEinsumDependencyChain
  rw [hX1]
  simp [searchInit]

/-- Without a producer-consumer path from `s` back to `s` the only chain from
`s` to `s` is the trivial one. -/
theorem FindEinsumDependencyChain_self_of_acyclic (w : FusedWorkload M S) (s : EinsumId)
    (h : ¬ Relation.TransGen (DependsOn w) s s) : FindEinsumDependencyChain w s s = [[s]] := by
  obtain ⟨X, hX1, hX2⟩ := FindEinsumDependencyChain_self w s
  cases X with
  | nil => exact hX1
  | cons q X =>
    obtain ⟨b, l, rfl, hl, hlast⟩ := hX2 q (List.mem_cons_self _ _)
    exact absurd (TransGen_of_Linked w l s b s hl hlast) h

/-- On a data space the einsum reads or writes, and without a chain back to the
einsum, the relevance test is the direct test. -/
theorem EinsumDimIsRelevantToTensor_eq_direct (lib : Isl M S) (w : FusedWorkload M S)
    (einsum : EinsumId) (einsum_dim : DimensionId) (dspace : DataSpaceId)
    (hchains : FindEinsumDependencyChain w einsum einsum = [[einsum]])
    (htouch : dspace ∈ w.TensorsReadByEinsum einsum ∨ dspace ∈ w.TensorsWrittenByEinsum einsum) :
    EinsumDimIsRelevantToTensor lib w einsum einsum_dim dspace
      = EinsumDimIsDirectlyRelevantToTensor lib w einsum einsum_dim dspace := by
  have hacc : w.Accesses einsum dspace = .ok (w.access_relation einsum dspace) := by
    simp [FusedWorkload.Accesses, htouch]
  have hcond : (!decide (dspace ∈ w.TensorsReadByEinsum einsum)
      && !decide (dspace ∈ w.TensorsWrittenByEinsum einsum)) = false := by
    rcases htouch with h | h <;> simp [h]
  unfold EinsumDimIsRelevantToTensor EinsumDimIsDirectlyRelevantToTensor
  rw [GetProjectedAccesses_of_trivial_chain lib w einsum dspace hchains htouch]
  simp only [hcond, Bool.false_eq_true, if_false, hacc]
  cases mapAt (w.EinsumDimToIdx einsum einsum_dim) with
  | error e => rfl
  | ok dim_idx => simp [bind, Except.bind, pure, Except.pure]

/-! ## The queried dimension in its own class -/

theorem coefficientTest_mono (w : FusedWorkload M S) (other_einsum : EinsumId) (coefs : List Int)
    (ranks r : List DimensionId) (h : coefficientTest w other_einsum coefs ranks = .ok r) :
    ∀ x ∈ ranks, x ∈ r := by
  intro x hx
  unfold coefficientTest at h
  simp only at h
  split at h
  · cases hd : mapAt (w.EinsumIdxToDim other_einsum
        (coefficientLoop coefs 0 (true, false, 0)).2.2) with
    | error e => rw [hd] at h; simp [bind, Except.bind] at h
    | ok d =>
      rw [hd] at h
      simp only [bind, Except.bind, pure, Except.pure, Except.ok.injEq] at h
      rw [← h]
      exact (mem_setInsert d x ranks).2 (Or.inr hx)
  · simp only [Except.ok.injEq] at h
    rw [← h]
    exact hx

/-- A step of the class computation only adds to the class. -/
theorem equivalentStep_mono (lib : Isl M S) (w : FusedWorkload M S) (dim_idx : Nat)
    (ranks r : List DimensionId) (it : M × EinsumId)
    (h : equivalentStep lib w dim_idx ranks it = .ok r) : ∀ x ∈ ranks, x ∈ r := by
  rw [equivalentStep_eq] at h
  split at h
  · simp only [Except.ok.injEq] at h; rw [← h]; exact fun x hx => hx
  · split at h
    · simp only [Except.ok.injEq] at h; rw [← h]; exact fun x hx => hx
    · split at h
      · simp at h
      · split at h
        · simp only [Except.ok.injEq] at h; rw [← h]; exact fun x hx => hx
        · exact coefficientTest_mono w _ _ ranks r h

theorem foldlM_equivalentStep_mono (lib : Isl M S) (w : FusedWorkload M S) (dim_idx : Nat) :
    ∀ (its : List (M × EinsumId)) (ranks r : List DimensionId),
      its.foldlM (equivalentStep lib w dim_idx) ranks = .ok r → ∀ x ∈ ranks, x ∈ r := by
  intro its
  induction its with
  | nil =>
    intro ranks r h
    simp only [List.foldlM_nil, pure, Except.pure, Except.ok.injEq] at h
    rw [← h]
    exact fun x hx => hx
  | cons it its ih =>
    intro ranks r h x hx
    rw [List.foldlM_cons] at h
    cases hs : equivalentStep lib w dim_idx ranks it with
    | error e => rw [hs] at h; simp [bind, Except.bind] at h
    | ok r1 =>
      rw [hs] at h
      simp only [bind, Except.bind] at h
      exact ih r1 r h x (equivalentStep_mono lib w dim_idx ranks r1 it hs x hx)

theorem equivalentOver_mono (lib : Isl M S) (w : FusedWorkload M S) (einsum : EinsumId)
    (dim_idx : Nat) (ranks r : List DimensionId) (entry : EinsumId × String)
    (h : equivalentOver lib w einsum dim_idx ranks entry = .ok r) : ∀ x ∈ ranks, x ∈ r := by
  unfold equivalentOver at h
  cases hi : GetProjectedIterations lib w einsum entry.1 with
  | error e => rw [hi] at h; simp [bind, Except.bind] at h
  | ok its =>
    rw [hi] at h
    simp only [bind, Except.bind] at h
    exact foldlM_equivalentStep_mono lib w dim_idx its ranks r h

/-- Walking a chain only appends to `projections`. -/
theorem walkIterations_prefix (lib : Isl M S) (w : FusedWorkload M S) (src back : EinsumId) :
    ∀ (chain : List EinsumId) (projection : M) (cur_tensor : DataSpaceId)
      (projections r : List (M × EinsumId)),
      walkIterations lib w src back chain projection cur_tensor projections = .ok r →
      ∃ Y, r = projections ++ Y := by
  intro chain
  induction chain with
  | nil =>
    intro projection cur_tensor projections r h
    simp only [walkIterations, Except.ok.injEq] at h
    exact ⟨[], by simp [h]⟩
  | cons e rest ih =>
    intro projection cur_tensor projections r h
    have tail : ∀ proj1 : M,
        (if e = back then
            walkIterations lib w src back rest proj1 cur_tensor (projections ++ [(proj1, back)])
          else do
            let cur_intermediate_tensor ← firstWrittenTensor w e
            let write_of_cur_intermediate ← w.Accesses e cur_intermediate_tensor
            walkIterations lib w src back rest
              (lib.apply_range (lib.reverse write_of_cur_intermediate) proj1)
              cur_intermediate_tensor projections) = .ok r →
        ∃ Y, r = projections ++ Y := by
      intro proj1 h1
      by_cases hb : e = back
      · simp only [hb, if_true] at h1
        obtain ⟨Y, hY⟩ := ih _ _ _ r h1
        exact ⟨(proj1, back) :: Y, by simp [hY]⟩
      · simp only [hb, if_false, bind, Except.bind] at h1
        cases hf : firstWrittenTensor w e with
        | error err => rw [hf] at h1; simp at h1
        | ok t =>
          rw [hf] at h1
          simp only at h1
          cases hw2 : w.Accesses e t with
          | error err => rw [hw2] at h1; simp at h1
          | ok wr =>
            rw [hw2] at h1
            exact ih _ _ _ r h1
    unfold walkIterations at h
    by_cases he : e = src
    · simp only [he, ne_eq, not_true_eq_false, if_false, bind, Except.bind, pure,
        Except.pure] at h
      subst he
      exact tail projection h
    · simp only [ne_eq, he, not_false_eq_true, if_true, bind, Except.bind, pure,
        Except.pure] at h
      cases ha : w.Accesses e cur_tensor with
      | error err => rw [ha] at h; simp at h
      | ok a =>
        rw [ha] at h
        exact tail _ h

theorem projectChain_prefix (lib : Isl M S) (w : FusedWorkload M S) (src : EinsumId)
    (projections r : List (M × EinsumId)) (chain : List EinsumId)
    (h : projectChain lib w src projections chain = .ok r) : ∃ Y, r = projections ++ Y := by
  unfold projectChain at h
  split at h
  · simp only [Except.ok.injEq] at h
    exact ⟨[], by simp [h]⟩
  · exact walkIterations_prefix lib w src _ chain _ _ projections r h

theorem foldlM_projectChain_prefix (lib : Isl M S) (w : FusedWorkload M S) (src : EinsumId) :
    ∀ (chains : List (List EinsumId)) (projections r : List (M × EinsumId)),
      chains.foldlM (projectChain lib w src) projections = .ok r → ∃ Y, r = projections ++ Y := by
  intro chains
  induction chains with
  | nil =>
    intro projections r h
    simp only [List.foldlM_nil, pure, Except.pure, Except.ok.injEq] at h
    exact ⟨[], by simp [h]⟩
  | cons chain chains ih =>
    intro projections r h
    rw [List.foldlM_cons] at h
    cases hc : projectChain lib w src projections chain with
    | error e => rw [hc] at h; simp [bind, Except.bind] at h
    | ok r1 =>
      rw [hc] at h
      simp only [bind, Except.bind] at h
      obtain ⟨Y1, hY1⟩ := projectChain_prefix lib w src projections r1 chain hc
      obtain ⟨Y2, hY2⟩ := ih r1 r h
      exact ⟨Y1 ++ Y2, by rw [hY2, hY1, List.append_assoc]⟩

/-- The projected iterations from an einsum to itself start with the identity
relation of the trivial chain. -/
theorem GetProjectedIterations_self_head (lib : Isl M S) (w : FusedWorkload M S) (s : EinsumId)
    (its : List (M × EinsumId)) (h : GetProjectedIterations lib w s s = .ok its) :
    ∃ rest, its = (lib.map_identity (w.EinsumOspaceBound s), s) :: rest := by
  obtain ⟨X, hX, _⟩ := FindEinsumDependencyChain_self w s
  unfold GetProjectedIterations at h
  rw [hX, List.foldlM_cons] at h
  have h1 : projectChain lib w s [] [s]
      = .ok [(lib.map_identity (w.EinsumOspaceBound s), s)] := by
    simp [projectChain, walkIterations, bind, Except.bind, pure, Except.pure]
  rw [h1] at h
  simp only [bind, Except.bind] at h
  obtain ⟨Y, hY⟩ := foldlM_projectChain_prefix lib w s X _ its h
  exact ⟨Y, by simpa using hY⟩

/-- The step on the identity relation adds the queried dimension. -/
theorem equivalentStep_identity (lib : Isl M S) (w : FusedWorkload M S) (s : EinsumId)
    (einsum_dim : DimensionId) (dim_idx : Nat) (ranks : List DimensionId)
    (hlib : IdentityProjectsToUnit lib (w.EinsumOspaceBound s) dim_idx)
    (hinv : w.EinsumIdxToDim s dim_idx = some einsum_dim) :
    equivalentStep lib w dim_idx ranks (lib.map_identity (w.EinsumOspaceBound s), s)
      = .ok (setInsert einsum_dim ranks) := by
  obtain ⟨h1, h2, h3, h4, h5, h6⟩ := hlib
  rw [equivalentStep_eq]
  have hloop := coefficientLoop_unit _ dim_idx 0 true 0 h5 h6
  simp only [Nat.zero_add] at hloop
  simp [h1, h2, h3, h4, coefficientTest, hloop, hinv, mapAt, bind, Except.bind, pure,
    Except.pure]

theorem equivalentOver_self (lib : Isl M S) (w : FusedWorkload M S) (s : EinsumId)
    (einsum_dim : DimensionId) (dim_idx : Nat) (ranks r : List DimensionId) (name : String)
    (hlib : IdentityProjectsToUnit lib (w.EinsumOspaceBound s) dim_idx)
    (hinv : w.EinsumIdxToDim s dim_idx = some einsum_dim)
    (h : equivalentOver lib w s dim_idx ranks (s, name) = .ok r) : einsum_dim ∈ r := by
  unfold equivalentOver at h
  cases hi : GetProjectedIterations lib w s s with
  | error e => rw [hi] at h; simp [bind, Except.bind] at h
  | ok its =>
    rw [hi] at h
    simp only [bind, Except.bind] at h
    obtain ⟨rest, rfl⟩ := GetProjectedIterations_self_head lib w s its hi
    rw [List.foldlM_cons, equivalentStep_identity lib w s einsum_dim dim_idx ranks hlib hinv] at h
    simp only [bind, Except.bind] at h
    exact foldlM_equivalentStep_mono lib w dim_idx rest _ r h einsum_dim
      ((mem_setInsert einsum_dim einsum_dim ranks).2 (Or.inl rfl))

theorem foldlM_equivalentOver_self (lib : Isl M S) (w : FusedWorkload M S) (s : EinsumId)
    (einsum_dim : DimensionId) (dim_idx : Nat) (name : String)
    (hlib : IdentityProjectsToUnit lib (w.EinsumOspaceBound s) dim_idx)
    (hinv : w.EinsumIdxToDim s dim_idx = some einsum_dim) :
    ∀ (names : List (EinsumId × String)) (ranks r : List DimensionId),
      names.foldlM (equivalentOver lib w s dim_idx) ranks = .ok r →
      (∀ x ∈ ranks, x ∈ r) ∧ ((s, name) ∈ names → einsum_dim ∈ r) := by
  intro names
  induction names with
  | nil =>
    intro ranks r h
    simp only [List.foldlM_nil, pure, Except.pure, Except.ok.injEq] at h
    rw [← h]
    exact ⟨fun x hx => hx, fun hm => absurd hm (List.not_mem_nil _)⟩
  | cons entry names ih =>
    intro ranks r h
    rw [List.foldlM_cons] at h
    cases hs : equivalentOver lib w s dim_idx ranks entry with
    | error e => rw [hs] at h; simp [bind, Except.bind] at h
    | ok r1 =>
      rw [hs] at h
      simp only [bind, Except.bind] at h
      obtain ⟨ih1, ih2⟩ := ih r1 r h
      refine ⟨fun x hx => ih1 x (equivalentOver_mono lib w s dim_idx ranks r1 entry hs x hx), ?_⟩
      intro hm
      rcases List.mem_cons.1 hm with heq | hm
      · rw [← heq] at hs
        exact ih1 _ (equivalentOver_self lib w s einsum_dim dim_idx ranks r1 name hlib hinv hs)
      · exact ih2 hm

/-- A query that finds no cache entry and returns, returns a class that holds
the queried dimension. -/
theorem EquivalentDimensions_self_mem (lib : Isl M S) (w : FusedWorkload M S)
    (hw : DimTablesSound lib w) (memo memo' : EquivalentDimMemo) (einsum : EinsumId)
    (einsum_dim : DimensionId) (C : List DimensionId)
    (hfresh : memo.lookup einsum_dim = none)
    (h : EquivalentDimensions lib w memo einsum einsum_dim = .ok (C, memo')) :
    einsum_dim ∈ C := by
  obtain ⟨dim_idx, hidx, hC, _⟩ :=
    EquivalentDimensions_uncached lib w memo memo' einsum einsum_dim C hfresh h
  obtain ⟨⟨name, hname⟩, hinv, hlib⟩ := hw einsum einsum_dim dim_idx hidx
  exact (foldlM_equivalentOver_self lib w einsum einsum_dim dim_idx name hlib hinv
    w.EinsumIdToName [] C hC).2 hname

/-- In every cache state the analyzer can reach, each key is a member of the
set stored under it. -/
theorem EquivalentMemoReachable_key_mem (lib : Isl M S) (w : FusedWorkload M S)
    (hw : DimTablesSound lib w) (memo : EquivalentDimMemo)
    (h : EquivalentMemoReachable lib w memo) :
    ∀ k v, memo.lookup k = some v → k ∈ v := by
  induction h with
  | fresh => intro k v hk; simp at hk
  | query memo memo' einsum einsum_dim C _ hq ih =>
    intro k v hk
    cases hl : memo.lookup einsum_dim with
    | some c =>
      have h2 : EquivalentDimensions lib w memo einsum einsum_dim = .ok (c, memo) := by
        unfold EquivalentDimensions
        rw [hl]
      rw [h2] at hq
      simp only [Except.ok.injEq, Prod.mk.injEq] at hq
      rw [← hq.2] at hk
      exact ih k v hk
    | none =>
      have hself := EquivalentDimensions_self_mem lib w hw memo memo' einsum einsum_dim C hl hq
      obtain ⟨h1, h2⟩ := EquivalentDimensions_propagates lib w memo memo' einsum einsum_dim C hl hq
      obtain ⟨_, _, _, h3⟩ :=
        EquivalentDimensions_uncached lib w memo memo' einsum einsum_dim C hl hq
      by_cases hkC : k ∈ C
      · rw [h2 k hkC] at hk
        simp only [Option.some.injEq] at hk
        rw [← hk]
        exact hkC
      · rw [propagateClass_frame einsum_dim C _ memo' h3 k hkC, lookup_memoAssign] at hk
        by_cases hkd : k = einsum_dim
        · exact absurd (hkd ▸ hself) hkC
        · simp only [hkd, if_false] at hk
          exact ih k v hk

/-- The dimension tables of the example workloads with one dimension per einsum
are sound for the matrix library. -/
theorem DimTablesSound_of_pipeline_tables (w : FusedWorkload (List (List Int)) Nat)
    (h1 : w.EinsumDimToIdx = pipeline.EinsumDimToIdx)
    (h2 : w.EinsumIdxToDim = pipeline.EinsumIdxToDim)
    (h3 : w.EinsumOspaceBound = pipeline.EinsumOspaceBound)
    (h4 : w.EinsumIdToName = pipeline.EinsumIdToName) : DimTablesSound matrixIsl w := by
  intro einsum einsum_dim dim_idx hidx
  rw [h1] at hidx
  rw [h2, h3, h4]
  simp only [pipeline] at hidx ⊢
  split at hidx
  · rename_i hcase
    simp only [Option.some.injEq] at hidx
    subst hidx
    have hunit : IdentityProjectsToUnit matrixIsl 1 0 := by
      refine ⟨by decide, by decide, by decide, by decide, by decide, ?_⟩
      intro j c hj hc
      have hco : matrixIsl.aff_coefficients (projectToDim matrixIsl 0 (matrixIsl.map_identity 1))
          = [1] := by decide
      rw [hco] at hc
      cases j with
      | zero => exact absurd rfl hj
      | succ j => simp at hc
    rcases hcase with ⟨rfl, rfl⟩ | ⟨rfl, rfl⟩
    · exact ⟨⟨"A", by simp⟩, by simp, hunit⟩
    · exact ⟨⟨"B", by simp⟩, by simp, hunit⟩
  · simp at hidx

/-! ## The access lookups of the iteration projector -/

theorem mem_of_lookup_eq_some {β : Type} :
    ∀ (tbl : List (Nat × β)) (k : Nat) (v : β), tbl.lookup k = some v → (k, v) ∈ tbl := by
  intro tbl
  induction tbl with
  | nil => intro k v h; simp at h
  | cons kv tbl ih =>
    obtain ⟨a, b⟩ := kv
    intro k v h
    rw [List.lookup_cons] at h
    cases hka : (k == a) with
    | true =>
      rw [hka] at h
      simp only [Option.some.injEq] at h
      have : k = a := by simpa using hka
      subst this
      subst h
      exact List.mem_cons_self _ _
    | false =>
      rw [hka] at h
      exact List.mem_cons_of_mem _ (ih k v h)

/-- When every einsum of the table writes exactly one tensor, a tensor written
by an einsum is the first and only one it writes. -/
theorem written_eq_singleton (w : FusedWorkload M S)
    (hone : ∀ e ts, (e, ts) ∈ w.written_tensors → ∃ T, ts = [T])
    (e : EinsumId) (T : DataSpaceId) (hT : T ∈ w.TensorsWrittenByEinsum e) :
    w.TensorsWrittenByEinsum e = [T] := by
  unfold FusedWorkload.TensorsWrittenByEinsum at hT ⊢
  cases hl : w.written_tensors.lookup e with
  | none => rw [hl] at hT; simp at hT
  | some ts =>
    rw [hl] at hT
    obtain ⟨T', rfl⟩ := hone e ts (mem_of_lookup_eq_some _ e ts hl)
    simp only [Option.getD_some, List.mem_singleton] at hT
    subst hT
    rfl

/-- Every failure of the walk with an undefined access is the failure of a
lookup listed by `walkLookups`. -/
theorem walkIterations_undefined_access (lib : Isl M S) (w : FusedWorkload M S)
    (src back : EinsumId) :
    ∀ (chain : List EinsumId) (projection : M) (cur_tensor : DataSpaceId)
      (projections : List (M × EinsumId)),
      walkIterations lib w src back chain projection cur_tensor projections
        = .error .undefined_access →
      ∃ p ∈ walkLookups w src back chain cur_tensor,
        w.Accesses p.1 p.2 = .error .undefined_access := by
  intro chain
  induction chain with
  | nil => intro projection cur_tensor projections h; simp [walkIterations] at h
  | cons e rest ih =>
    intro projection cur_tensor projections h
    have tail : ∀ proj1 : M,
        (if e = back then
            walkIterations lib w src back rest proj1 cur_tensor (projections ++ [(proj1, back)])
          else do
            let cur_intermediate_tensor ← firstWrittenTensor w e
            let write_of_cur_intermediate ← w.Accesses e cur_intermediate_tensor
            walkIterations lib w src back rest
              (lib.apply_range (lib.reverse write_of_cur_intermediate) proj1)
              cur_intermediate_tensor projections) = .error .undefined_access →
        ∃ p ∈ (if e = back then walkLookups w src back rest cur_tensor
          else
            match (w.TensorsWrittenByEinsum e).head? with
            | some t => (e, t) :: walkLookups w src back rest t
            | none => []),
          w.Accesses p.1 p.2 = .error .undefined_access := by
      intro proj1 h1
      by_cases hb : e = back
      · simp only [hb, if_true] at h1 ⊢
        exact ih _ _ _ h1
      · simp only [hb, if_false, bind, Except.bind] at h1 ⊢
        unfold firstWrittenTensor at h1
        cases hh : (w.TensorsWrittenByEinsum e).head? with
        | none => rw [hh] at h1; simp at h1
        | some t =>
          rw [hh] at h1
          simp only at h1
          cases hw2 : w.Accesses e t with
          | error err =>
            rw [hw2] at h1
            simp only [Except.error.injEq] at h1
            subst h1
            exact ⟨(e, t), List.mem_cons_self _ _, hw2⟩
          | ok wr =>
            rw [hw2] at h1
            obtain ⟨p, hp, hp2⟩ := ih _ _ _ h1
            exact ⟨p, List.mem_cons_of_mem _ hp, hp2⟩
    unfold walkIterations at h
    unfold walkLookups
    by_cases he : e = src
    · simp only [he, ne_eq, not_true_eq_false, if_false, bind, Except.bind, pure,
        Except.pure, List.nil_append] at h ⊢
      subst he
      exact tail projection h
    · simp only [ne_eq, he, not_false_eq_true, if_true, bind, Except.bind, pure,
        Except.pure] at h ⊢
      cases ha : w.Accesses e cur_tensor with
      | error err =>
        rw [ha] at h
        simp only [Except.error.injEq] at h
        subst h
        exact ⟨(e, cur_tensor), by simp, ha⟩
      | ok a =>
        rw [ha] at h
        obtain ⟨p, hp, hp2⟩ := tail _ h
        exact ⟨p, List.mem_append_right _ hp, hp2⟩

/-- Walking the part of a chain after `src`: when the einsums are linked, none
repeats, none is `src`, the last is `chain.back()` and the first reads
`cur_tensor`, every lookup is for a pair the einsum reads or writes and the
walk returns. -/
theorem walkIterations_defined (lib : Isl M S) (w : FusedWorkload M S) (src back : EinsumId)
    (hone : ∀ e ts, (e, ts) ∈ w.written_tensors → ∃ T, ts = [T])
    (hreaders : ∀ T e, e ∈ w.ReaderEinsums T → T ∈ w.TensorsReadByEinsum e) :
    ∀ (l : List EinsumId) (projection : M) (cur_tensor : DataSpaceId)
      (projections : List (M × EinsumId)),
      Linked w l → l.Nodup → src ∉ l → l.getLast? = some back →
      (∀ e, l.head? = some e → e ∈ w.ReaderEinsums cur_tensor) →
      (∀ p ∈ walkLookups w src back l cur_tensor,
        p.2 ∈ w.TensorsReadByEinsum p.1 ∨ p.2 ∈ w.TensorsWrittenByEinsum p.1) ∧
      ∃ r, walkIterations lib w src back l projection cur_tensor projections = .ok r := by
  intro l
  induction l with
  | nil => intro _ _ _ _ _ _ h; simp at h
  | cons e rest ih =>
    intro projection cur_tensor projections hlink hnd hsrc hlast hhead
    have he : e ≠ src := fun hcon => hsrc (hcon ▸ List.mem_cons_self _ _)
    have hread : cur_tensor ∈ w.TensorsReadByEinsum e := hreaders _ _ (hhead e rfl)
    have hacc : w.Accesses e cur_tensor = .ok (w.access_relation e cur_tensor) := by
      simp [FusedWorkload.Accesses, hread]
    cases rest with
    | nil =>
      simp only [List.getLast?_singleton, Option.some.injEq] at hlast
      subst hlast
      refine ⟨?_, ?_⟩
      · intro p hp
        simp only [walkLookups, ne_eq, he, not_false_eq_true, if_true, List.append_nil,
          List.mem_singleton] at hp
        subst hp
        exact Or.inl hread
      · simp [walkIterations, he, hacc, bind, Except.bind, pure, Except.pure]
    | cons e' rest' =>
      have hlast' : (e' :: rest').getLast? = some back := by
        simpa [List.getLast?_cons_cons] using hlast
      have hback : e ≠ back := by
        intro hcon
        have hmem : back ∈ e' :: rest' := List.mem_of_getLast?_eq_some hlast'
        exact (List.nodup_cons.1 hnd).1 (hcon ▸ hmem)
      obtain ⟨T, hT, hTr⟩ := hlink 0 e e' (by simp) (by simp)
      have hw : w.TensorsWrittenByEinsum e = [T] := written_eq_singleton w hone e T hT
      have hacc2 : w.Accesses e T = .ok (w.access_relation e T) := by
        simp [FusedWorkload.Accesses, hT]
      obtain ⟨ih1, r, ih2⟩ := ih
        (lib.apply_range (lib.reverse (w.access_relation e T))
          (lib.apply_range (w.access_relation e cur_tensor) projection)) T projections
        (Linked_tail w e _ hlink) (List.nodup_cons.1 hnd).2
        (fun hcon => hsrc (List.mem_cons_of_mem _ hcon)) hlast'
        (by
          intro x hx
          simp only [List.head?_cons, Option.some.injEq] at hx
          subst hx
          exact hTr)
      refine ⟨?_, r, ?_⟩
      · intro p hp
        simp only [walkLookups, ne_eq, he, not_false_eq_true, if_true, hback, if_false, hw,
          List.head?_cons, List.singleton_append, List.mem_cons] at hp
        rcases hp with rfl | rfl | hp
        · exact Or.inl hread
        · exact Or.inr hT
        · exact ih1 p hp
      · rw [← ih2]
        simp [walkIterations, he, hback, hacc, hacc2, firstWrittenTensor, hw, bind,
          Except.bind, pure, Except.pure]

/-- Walking a whole chain from `src` to another einsum `dst`. -/
theorem projectChain_defined (lib : Isl M S) (w : FusedWorkload M S) (src dst : EinsumId)
    (hne : src ≠ dst)
    (hone : ∀ e ts, (e, ts) ∈ w.written_tensors → ∃ T, ts = [T])
    (hreaders : ∀ T e, e ∈ w.ReaderEinsums T → T ∈ w.TensorsReadByEinsum e)
    (chain : List EinsumId) (hchain : chain ∈ FindEinsumDependencyChain w src dst)
    (projections : List (M × EinsumId)) :
    (∀ p ∈ walkLookups w src dst chain 0,
      p.2 ∈ w.TensorsReadByEinsum p.1 ∨ p.2 ∈ w.TensorsWrittenByEinsum p.1) ∧
    ∃ r, projectChain lib w src projections chain = .ok r := by
  obtain ⟨hhead, hlast⟩ := FindEinsumDependencyChain_ends w src dst chain hchain
  have hlink := FindEinsumDependencyChain_linked w src dst chain hchain
  have hnd := FindEinsumDependencyChain_nodup_of_ne w src dst hne chain hchain
  cases chain with
  | nil => simp at hhead
  | cons a rest =>
    simp only [List.head?_cons, Option.some.injEq] at hhead
    subst hhead
    cases rest with
    | nil =>
      simp only [List.getLast?_singleton, Option.some.injEq] at hlast
      exact absurd hlast hne
    | cons e' rest' =>
      have hlast' : (e' :: rest').getLast? = some dst := by
        simpa [List.getLast?_cons_cons] using hlast
      obtain ⟨T, hT, hTr⟩ := hlink 0 a e' (by simp) (by simp)
      have hw : w.TensorsWrittenByEinsum a = [T] := written_eq_singleton w hone a T hT
      have hacc2 : w.Accesses a T = .ok (w.access_relation a T) := by
        simp [FusedWorkload.Accesses, hT]
      obtain ⟨h1, r, h2⟩ := walkIterations_defined lib w a dst hone hreaders (e' :: rest')
        (lib.apply_range (lib.reverse (w.access_relation a T))
          (lib.map_identity (w.EinsumOspaceBound a))) T projections
        (Linked_tail w a _ hlink) (List.nodup_cons.1 hnd).2 (List.nodup_cons.1 hnd).1 hlast'
        (by
          intro x hx
          simp only [List.head?_cons, Option.some.injEq] at hx
          subst hx
          exact hTr)
      refine ⟨?_, r, ?_⟩
      · intro p hp
        simp only [walkLookups, ne_eq, not_true_eq_false, if_false, hne, hw, List.head?_cons,
          List.nil_append, List.mem_cons] at hp
        rcases hp with rfl | hp
        · exact Or.inr hT
        · exact h1 p hp
      · rw [← h2]
        simp [projectChain, hlast, walkIterations, hne, hacc2, firstWrittenTensor, hw, bind,
          Except.bind, pure, Except.pure]

theorem foldlM_projectChain_defined (lib : Isl M S) (w : FusedWorkload M S) (src : EinsumId) :
    ∀ (chains : List (List EinsumId)) (projections : List (M × EinsumId)),
      (∀ chain ∈ chains, ∀ acc, ∃ r, projectChain lib w src acc chain = .ok r) →
      ∃ r, chains.foldlM (projectChain lib w src) projections = .ok r := by
  intro chains
  induction chains with
  | nil => intro projections _; exact ⟨projections, rfl⟩
  | cons chain chains ih =>
    intro projections h
    obtain ⟨r1, hr1⟩ := h chain (List.mem_cons_self _ _) projections
    rw [List.foldlM_cons, hr1]
    simp only [bind, Except.bind]
    exact ih r1 (fun c hc => h c (List.mem_cons_of_mem _ hc))

/-! ## Dependency chain finder -/

/-- C1 (soundness of FindChains): in every chain `[s0, ..., sn]` returned by
`FindEinsumDependencyChain w src dst`, each consecutive pair `(si, si+1)` is a
producer-consumer edge: some tensor written by `si` has `si+1` among its
reader einsums. -/
theorem FindEinsumDependencyChain_sound (w : FusedWorkload M S) (src dst : EinsumId)
    (chain : List EinsumId) (h : chain ∈ FindEinsumDependencyChain w src dst)
    (i : Nat) (a b : EinsumId) (ha : chain[i]? = some a) (hb : chain[i + 1]? = some b) :
    ∃ T, T ∈ w.TensorsWrittenByEinsum a ∧ b ∈ w.ReaderEinsums T :=
  FindEinsumDependencyChain_linked w src dst chain h i a b ha hb

theorem FindEinsumDependencyChain_sound_witness :
    [0, 1, 3] ∈ FindEinsumDependencyChain diamond 0 3 ∧
      ∃ T, T ∈ diamond.TensorsWrittenByEinsum 0 ∧ 1 ∈ diamond.ReaderEinsums T :=
  ⟨by decide,
    FindEinsumDependencyChain_sound diamond 0 3 [0, 1, 3] (by decide) 0 0 1 rfl rfl⟩

/-- C2 (completeness of FindChains): every simple directed path from `src` to
`dst` over write->read edges (no repeated einsum, first element `src`, last
element `dst`) is among the chains `FindEinsumDependencyChain w src dst`
returns; on the diamond `0 → 1 → 3`, `0 → 2 → 3` the result consists of exactly
the two chains `[0, 2, 3]` and `[0, 1, 3]`. -/
theorem FindEinsumDependencyChain_all_simple_paths (w : FusedWorkload M S) (src dst : EinsumId) :
    (∀ path : List EinsumId, path.Nodup → path.head? = some src → path.getLast? = some dst →
      (∀ i a b, path[i]? = some a → path[i + 1]? = some b →
        ∃ T, T ∈ w.TensorsWrittenByEinsum a ∧ b ∈ w.ReaderEinsums T) →
      path ∈ FindEinsumDependencyChain w src dst) ∧
    FindEinsumDependencyChain diamond 0 3 = [[0, 2, 3], [0, 1, 3]] :=
  ⟨fun path hnd hhead hlast hlink =>
    FindEinsumDependencyChain_complete w src dst path hnd hhead hlast hlink, by decide⟩

theorem FindEinsumDependencyChain_all_simple_paths_witness :
    [0, 1, 3] ∈ FindEinsumDependencyChain diamond 0 3 :=
  (FindEinsumDependencyChain_all_simple_paths diamond 0 3).1 [0, 1, 3] (by decide) rfl rfl
    (by
      intro i a b ha hb
      match i, ha, hb with
      | 0, ha, hb =>
        simp only [List.getElem?_cons_zero, List.getElem?_cons_succ, Option.some.injEq] at ha hb
        subst ha; subst hb
        exact ⟨10, by decide, by decide⟩
      | 1, ha, hb =>
        simp only [List.getElem?_cons_zero, List.getElem?_cons_succ, Option.some.injEq] at ha hb
        subst ha; subst hb
        exact ⟨11, by decide, by decide⟩
      | n + 2, ha, hb => simp at hb)

/-- C3, the code at the failing input: on the two-einsum cycle `0 → 1 → 0` the
query `(0, 0)` returns the chain `[0, 1, 0]`, in which einsum 0 occurs twice. -/
theorem FindEinsumDependencyChain_cycle_repeats_src :
    FindEinsumDependencyChain cyclic 0 0 = [[0], [0, 1, 0]] ∧
      [0, 1, 0] ∈ FindEinsumDependencyChain cyclic 0 0 ∧ ¬ [0, 1, 0].Nodup := by
  decide

/-- C4 (endpoints of FindChains): every chain returned by
`FindEinsumDependencyChain w src dst` is non-empty, its first element is `src`
and its last element is `dst`. -/
theorem FindEinsumDependencyChain_endpoints (w : FusedWorkload M S) (src dst : EinsumId)
    (chain : List EinsumId) (h : chain ∈ FindEinsumDependencyChain w src dst) :
    chain ≠ [] ∧ chain.head? = some src ∧ chain.getLast? = some dst := by
  obtain ⟨h1, h2⟩ := FindEinsumDependencyChain_ends w src dst chain h
  refine ⟨?_, h1, h2⟩
  rintro rfl
  simp at h1

theorem FindEinsumDependencyChain_endpoints_witness :
    [0, 2, 3] ∈ FindEinsumDependencyChain diamond 0 3 ∧
      ([0, 2, 3] : List EinsumId) ≠ [] ∧ ([0, 2, 3] : List EinsumId).head? = some 0 ∧
      ([0, 2, 3] : List EinsumId).getLast? = some 3 :=
  ⟨by decide, FindEinsumDependencyChain_endpoints diamond 0 3 [0, 2, 3] (by decide)⟩

/-- C5 (reflexivity of FindChains): for every workload and every einsum `s`,
`FindEinsumDependencyChain w s s` contains the single-einsum chain `[s]`. -/
theorem FindEinsumDependencyChain_refl (w : FusedWorkload M S) (s : EinsumId) :
    [s] ∈ FindEinsumDependencyChain w s s :=
  (searchLoop_complete w s (searchBound w) (searchInit s s) (stackWeight_init_le w s s)).1 [s]
    (by simp [searchInit])

/-! ## Relevance, projections and equivalence -/

/-- C6, the code at the failing input: on the cycle `0 → 1 → 0` einsum 0 reads
tensor 10 and its dimension 100 is directly relevant to it, yet
`EinsumDimIsRelevantToTensor` does not return true: the chain `[0, 1, 0]` of
`FindEinsumDependencyChain cyclic 0 0` makes `GetProjectedAccesses` look up
the access of einsum 1 to tensor 10, which einsum 1 neither reads nor writes. -/
theorem EinsumDimIsRelevantToTensor_fails_on_cycle :
    10 ∈ cyclic.TensorsReadByEinsum 0 ∧
      EinsumDimIsDirectlyRelevantToTensor matrixIsl cyclic 0 100 10 = .ok true ∧
      FindEinsumDependencyChain cyclic 0 0 = [[0], [0, 1, 0]] ∧
      cyclic.Accesses 1 10 = .error .undefined_access ∧
      EinsumDimIsRelevantToTensor matrixIsl cyclic 0 100 10 = .error .undefined_access := by
  decide

/-- C7, counterexample: on a fresh analyzer of the two-einsum pipeline the
query `EquivalentDimensions(1, 101)` returns `{101}` and the next query
`EquivalentDimensions(0, 100)` returns `{100, 101}`: dimension 101 is in the
class of 100, while the class returned for 101 does not hold 100. -/
theorem EquivalentDimensions_asymmetric_when_consumer_first :
    EquivalentDimensions matrixIsl pipeline [] 1 101 = .ok ([101], [(101, [101])]) ∧
      EquivalentDimensions matrixIsl pipeline [(101, [101])] 0 100
        = .ok ([100, 101], [(101, [100, 101]), (100, [100, 101])]) ∧
      101 ∈ [100, 101] ∧ 100 ∉ [101] := by
  decide

/-- C7 as amended: when `EquivalentDimensions(stage1, dim1)` finds no cache
entry for `dim1` and returns the class `C` it computed, with `dim2` and `dim1`
in `C`, the query `EquivalentDimensions(stage2, dim2)` issued directly after it
returns that same class `C`, which holds `dim1`. -/
theorem EquivalentDimensions_symmetric_after_producer (lib : Isl M S) (w : FusedWorkload M S)
    (memo memo' : EquivalentDimMemo) (stage1 stage2 : EinsumId) (dim1 dim2 : DimensionId)
    (C : List DimensionId) (hfresh : memo.lookup dim1 = none)
    (h : EquivalentDimensions lib w memo stage1 dim1 = .ok (C, memo'))
    (h2 : dim2 ∈ C) (h1 : dim1 ∈ C) :
    ∃ C', EquivalentDimensions lib w memo' stage2 dim2 = .ok (C', memo') ∧ C' = C ∧ dim1 ∈ C' := by
  obtain ⟨_, hall⟩ := EquivalentDimensions_propagates lib w memo memo' stage1 dim1 C hfresh h
  refine ⟨C, ?_, rfl, h1⟩
  unfold EquivalentDimensions
  rw [hall dim2 h2]

theorem EquivalentDimensions_symmetric_after_producer_witness :
    ∃ C', EquivalentDimensions matrixIsl pipeline [(101, [100, 101]), (100, [100, 101])] 1 101
        = .ok (C', [(101, [100, 101]), (100, [100, 101])]) ∧ C' = [100, 101] ∧ 100 ∈ C' :=
  EquivalentDimensions_symmetric_after_producer matrixIsl pipeline []
    [(101, [100, 101]), (100, [100, 101])] 0 1 100 101 [100, 101] rfl (by decide) (by decide)
    (by decide)

/-- C8, the code at the failing input: einsum 1 of the pipeline neither reads
nor writes tensor 13, which has no reader and no writer.  The call
`GetProjectedAccesses(1, 13)` raises no invalid-query error: lines 294-317 test
only the size of the set of source einsums, and line 319 dereferences the empty
`WriterEinsum(13)`, which C++ leaves undefined. -/
theorem GetProjectedAccesses_absent_writer_unchecked :
    13 ∉ pipeline.TensorsReadByEinsum 1 ∧ 13 ∉ pipeline.TensorsWrittenByEinsum 1 ∧
      pipeline.ReaderEinsums 13 = [] ∧ pipeline.WriterEinsum 13 = none ∧
      sourceEinsums pipeline 1 13 = .error .empty_optional ∧
      GetProjectedAccesses matrixIsl pipeline 1 13 = .error .empty_optional :=
  ⟨by decide, by decide, by decide, by decide,
    (GetProjectedAccesses_of_absent_writer matrixIsl pipeline 1 13 (by decide) (by decide)
      (by decide) (by decide)).1,
    (GetProjectedAccesses_of_absent_writer matrixIsl pipeline 1 13 (by decide) (by decide)
      (by decide) (by decide)).2⟩

/-- C9 (source-stage selection): `GetProjectedAccesses(einsum, dspace)`
enumerates the chains of the einsums in the set that
`sourceEinsums w einsum dspace` returns.  That set is `{einsum}` whenever the
einsum reads or writes the data space (whatever its writer and other readers
are); otherwise it is the full set `ReaderEinsums(dspace)` when that is
non-empty; otherwise it is the single einsum `WriterEinsum(dspace)`. -/
theorem sourceEinsums_selection (lib : Isl M S) (w : FusedWorkload M S) (einsum : EinsumId)
    (dspace : DataSpaceId) :
    GetProjectedAccesses lib w einsum dspace
        = (sourceEinsums w einsum dspace >>= fun src_einsums =>
            src_einsums.foldlM (projectAccessesFrom lib w einsum dspace) []) ∧
      (dspace ∈ w.TensorsReadByEinsum einsum ∨ dspace ∈ w.TensorsWrittenByEinsum einsum →
        sourceEinsums w einsum dspace = .ok [einsum]) ∧
      (dspace ∉ w.TensorsReadByEinsum einsum → dspace ∉ w.TensorsWrittenByEinsum einsum →
        w.ReaderEinsums dspace ≠ [] →
        ∃ src_einsums, sourceEinsums w einsum dspace = .ok src_einsums ∧
          ∀ s, s ∈ src_einsums ↔ s ∈ w.ReaderEinsums dspace) ∧
      (dspace ∉ w.TensorsReadByEinsum einsum → dspace ∉ w.TensorsWrittenByEinsum einsum →
        w.ReaderEinsums dspace = [] → ∀ writer, w.WriterEinsum dspace = some writer →
        sourceEinsums w einsum dspace = .ok [writer]) := by
  refine ⟨rfl, ?_, ?_, ?_⟩
  · intro h
    by_cases hr : dspace ∈ w.TensorsReadByEinsum einsum
    · simp [sourceEinsums, hr, setInsert, pure, Except.pure]
    · have hw : dspace ∈ w.TensorsWrittenByEinsum einsum := h.resolve_left hr
      simp [sourceEinsums, hr, hw, setInsert, pure, Except.pure]
  · intro hr hw hne
    have hlen : (List.foldl (fun s e => setInsert e s) [] (w.ReaderEinsums dspace)).length ≠ 0 := by
      cases hre : w.ReaderEinsums dspace with
      | nil => exact absurd hre hne
      | cons x xs =>
        intro hcon
        have hx : x ∈ List.foldl (fun s e => setInsert e s) [] (x :: xs) :=
          (mem_foldl_setInsert (x :: xs) [] x).2 (Or.inl (List.mem_cons_self _ _))
        rw [List.length_eq_zero.1 hcon] at hx
        exact List.not_mem_nil _ hx
    refine ⟨List.foldl (fun s e => setInsert e s) [] (w.ReaderEinsums dspace), ?_, ?_⟩
    · simp only [sourceEinsums, hr, hw, if_false, List.length_nil, if_true, hlen]
      rfl
    · intro s
      rw [mem_foldl_setInsert]
      simp
  · intro hr hw hre writer hwr
    simp [sourceEinsums, hr, hw, hre, hwr, derefWriter, setInsert, bind, Except.bind, pure,
      Except.pure]

theorem sourceEinsums_selection_witness :
    (11 ∈ pipeline.TensorsReadByEinsum 1 ∨ 11 ∈ pipeline.TensorsWrittenByEinsum 1) ∧
      sourceEinsums pipeline 1 11 = .ok [1] ∧
      (∃ src_einsums, sourceEinsums cyclic 1 10 = .ok src_einsums ∧
        ∀ s, s ∈ src_einsums ↔ s ∈ cyclic.ReaderEinsums 10) ∧
      sourceEinsums pipeline 0 12 = .ok [1] :=
  ⟨by decide,
    (sourceEinsums_selection matrixIsl pipeline 1 11).2.1 (by decide),
    (sourceEinsums_selection matrixIsl cyclic 1 10).2.2.1 (by decide) (by decide) (by decide),
    (sourceEinsums_selection matrixIsl pipeline 0 12).2.2.2 (by decide) (by decide) (by decide)
      1 (by decide)⟩

/-- C10, the code at the failing input: for the einsum 0 that reads the tensor
it writes, `FindEinsumDependencyChain(0, 0)` returns the two chains `[0]` and
`[0, 0]`, and `GetProjectedIterations(0, 0)` returns three pairs: walking
`[0, 0]` appends a pair at each of its two elements, both being equal to
`chain.back()`. -/
theorem GetProjectedIterations_three_pairs_for_two_chains :
    FindEinsumDependencyChain selfReader 0 0 = [[0], [0, 0]] ∧
      GetProjectedIterations matrixIsl selfReader 0 0
        = .ok [([[1]], 0), ([[1]], 0), ([[1]], 0)] := by
  decide

/-! ## Memoized relevance -/

/-- C11 (relevance idempotence): in every cache state an analyzer can reach,
`EinsumDimsRelevantToTensor(einsum, dspace)` has the outcome of the uncached
computation; a second call with the same arguments returns the same set (and
leaves the cache as it is), and that set is
`{dim in EinsumOspaceDimensions(einsum) | EinsumDimIsRelevantToTensor(einsum, dim, dspace)}`.
The call returns a set whenever the test returns for every dimension of the
einsum; where the test fails for a dimension both calls fail alike. -/
theorem EinsumDimsRelevantToTensor_idempotent (lib : Isl M S) (w : FusedWorkload M S)
    (memo : RelevantDimMemo) (hm : RelevantMemoReachable lib w memo)
    (einsum : EinsumId) (dspace : DataSpaceId) :
    (EinsumDimsRelevantToTensor lib w memo einsum dspace).map Prod.fst
        = relevantDims lib w (einsum, dspace) ∧
      (∀ dims memo', EinsumDimsRelevantToTensor lib w memo einsum dspace = .ok (dims, memo') →
        EinsumDimsRelevantToTensor lib w memo' einsum dspace = .ok (dims, memo') ∧
        ∀ d, d ∈ dims ↔ d ∈ w.EinsumOspaceDimensions einsum ∧
          EinsumDimIsRelevantToTensor lib w einsum d dspace = .ok true) ∧
      ((∀ d ∈ w.EinsumOspaceDimensions einsum,
          ∃ b, EinsumDimIsRelevantToTensor lib w einsum d dspace = .ok b) →
        ∃ dims memo', EinsumDimsRelevantToTensor lib w memo einsum dspace = .ok (dims, memo')) := by
  have hc := RelevantMemoReachable_consistent lib w memo hm
  have hout := memoizedDims_outcome (relevantDims lib w) memo (einsum, dspace) hc
  refine ⟨hout, ?_, ?_⟩
  · intro dims memo' h
    obtain ⟨_, h2, h3, _⟩ :=
      memoizedDims_consistent (relevantDims lib w) memo memo' (einsum, dspace) dims hc h
    refine ⟨?_, ?_⟩
    · exact (memoizedDims_spec (relevantDims lib w (einsum, dspace)) memo' (einsum, dspace)).1
        dims h3
    · intro d
      exact mem_collectRelevantDims _ _ dims h2 d
  · intro hall
    obtain ⟨r, hr⟩ := collectRelevantDims_ok
      (fun einsum_dim => EinsumDimIsRelevantToTensor lib w einsum einsum_dim dspace)
      (w.EinsumOspaceDimensions einsum) hall
    have hr' : relevantDims lib w (einsum, dspace) = .ok r := hr
    have hout2 := hout.trans hr'
    cases hq : EinsumDimsRelevantToTensor lib w memo einsum dspace with
    | error e =>
      have hq' : memoizedDims (relevantDims lib w (einsum, dspace)) memo (einsum, dspace)
          = .error e := hq
      rw [hq'] at hout2
      simp [Except.map] at hout2
    | ok p => exact ⟨p.1, p.2, rfl⟩

theorem EinsumDimsRelevantToTensor_idempotent_witness :
    EinsumDimsRelevantToTensor matrixIsl pipeline [] 1 11 = .ok ([101], [((1, 11), [101])]) ∧
      EinsumDimsRelevantToTensor matrixIsl pipeline [((1, 11), [101])] 1 11
        = .ok ([101], [((1, 11), [101])]) ∧
      (101 ∈ [101] ↔ 101 ∈ pipeline.EinsumOspaceDimensions 1 ∧
        EinsumDimIsRelevantToTensor matrixIsl pipeline 1 101 11 = .ok true) :=
  ⟨by decide,
    ((EinsumDimsRelevantToTensor_idempotent matrixIsl pipeline []
      RelevantMemoReachable.fresh 1 11).2.1 [101] [((1, 11), [101])] (by decide)).1,
    ((EinsumDimsRelevantToTensor_idempotent matrixIsl pipeline []
      RelevantMemoReachable.fresh 1 11).2.1 [101] [((1, 11), [101])] (by decide)).2 101⟩

/-- C12, counterexample: on a fresh analyzer of the two-einsum pipeline the
query `EquivalentDimensions(1, 101)` stores `{101}` under the key 101; the
later query `EquivalentDimensions(0, 100)`, for another dimension, replaces the
value under the key 101 by `{100, 101}`. -/
theorem EquivalentDimensions_overwrites_entry :
    EquivalentDimensions matrixIsl pipeline [] 1 101 = .ok ([101], [(101, [101])]) ∧
      List.lookup 101 [(101, [101])] = some [101] ∧
      EquivalentDimensions matrixIsl pipeline [(101, [101])] 0 100
        = .ok ([100, 101], [(101, [100, 101]), (100, [100, 101])]) ∧
      List.lookup 101 [(101, [100, 101]), (100, [100, 101])] = some [100, 101] ∧
      ([100, 101] : List DimensionId) ≠ [101] := by
  decide

/-- C12 as amended: once the direct-relevance cache or the relevance cache
holds a value for a key, no later query changes the value stored under that
key.  The equivalence cache keeps the value stored under a key through a later
query, unless that query finds no entry for its own dimension and computes a
class that contains the key: then the value under the key is replaced by that
class. -/
theorem caches_keep_values (lib : Isl M S) (w : FusedWorkload M S) :
    (∀ (memo memo' : RelevantDimMemo) einsum dspace dims k v,
        EinsumDimsDirectlyRelevantToTensor lib w memo einsum dspace = .ok (dims, memo') →
        memo.lookup k = some v → memo'.lookup k = some v) ∧
      (∀ (memo memo' : RelevantDimMemo) einsum dspace dims k v,
        EinsumDimsRelevantToTensor lib w memo einsum dspace = .ok (dims, memo') →
        memo.lookup k = some v → memo'.lookup k = some v) ∧
      (∀ (memo memo' : EquivalentDimMemo) einsum einsum_dim C k v,
        EquivalentDimensions lib w memo einsum einsum_dim = .ok (C, memo') →
        memo.lookup k = some v →
        (memo.lookup einsum_dim = none ∧ k ∈ C → memo'.lookup k = some C) ∧
        (¬ (memo.lookup einsum_dim = none ∧ k ∈ C) → memo'.lookup k = some v)) :=
  ⟨fun memo memo' einsum dspace dims k v h hk =>
      memoizedDims_keeps _ memo memo' (einsum, dspace) dims h k v hk,
    fun memo memo' einsum dspace dims k v h hk =>
      memoizedDims_keeps _ memo memo' (einsum, dspace) dims h k v hk,
    fun memo memo' einsum einsum_dim C k v h hk =>
      EquivalentDimensions_keeps_or_overwrites lib w memo memo' einsum einsum_dim C h k v hk⟩

theorem caches_keep_values_witness :
    List.lookup (1, 11) [((0, 11), [100]), ((1, 11), [101])] = some [101] ∧
      List.lookup (0, 11) [((1, 11), [101]), ((0, 11), [100])] = some [100] ∧
      List.lookup 101 [(101, [100, 101]), (100, [100, 101])] = some [100, 101] :=
  ⟨(caches_keep_values matrixIsl pipeline).1 [((1, 11), [101])]
      [((0, 11), [100]), ((1, 11), [101])] 0 11 [100] (1, 11) [101] (by decide) (by decide),
    (caches_keep_values matrixIsl pipeline).2.1 [((0, 11), [100])]
      [((1, 11), [101]), ((0, 11), [100])] 1 11 [101] (0, 11) [100] (by decide) (by decide),
    ((caches_keep_values matrixIsl pipeline).2.2 [(101, [101])]
      [(101, [100, 101]), (100, [100, 101])] 0 100 [100, 101] 101 [101] (by decide)
      (by decide)).1 ⟨by decide, by decide⟩⟩

/-! ## The coefficient test of EquivalentDimensions -/

/-- C13 (coefficient test): for a projected relation that passes the filters of
lines 201-241, `equivalentStep` is the coefficient test on the coefficients of
its affine function over the other einsum's input dimensions.  If exactly one
coefficient equals 1, at index `k`, and all others equal 0, the dimension
`EinsumIdxToDim(other_einsum)[k]` is added to the class; if more than one
coefficient equals 1, or a coefficient is neither 0 nor 1, no dimension is
added for that candidate. -/
theorem coefficientTest_unit_coefficient (lib : Isl M S) (w : FusedWorkload M S) (dim_idx : Nat)
    (equivalent_ranks : List DimensionId) (it : M × EinsumId) (coefs : List Int) :
    (lib.n_basic_map it.1 = 1 → lib.is_single_valued (projectToDim lib dim_idx it.1) = true →
      lib.multi_pw_aff_size (projectToDim lib dim_idx it.1) = 1 →
      lib.pw_aff_n_piece (projectToDim lib dim_idx it.1) = 1 →
      lib.aff_coefficients (projectToDim lib dim_idx it.1) = coefs →
      equivalentStep lib w dim_idx equivalent_ranks it
        = coefficientTest w it.2 coefs equivalent_ranks) ∧
    (∀ (k : Nat) (d : DimensionId), coefs[k]? = some 1 →
      (∀ (j : Nat) (c : Int), j ≠ k → coefs[j]? = some c → c = 0) →
      w.EinsumIdxToDim it.2 k = some d →
      coefficientTest w it.2 coefs equivalent_ranks = .ok (setInsert d equivalent_ranks)) ∧
    ((∃ a b : Nat, a ≠ b ∧ coefs[a]? = some 1 ∧ coefs[b]? = some 1) →
      coefficientTest w it.2 coefs equivalent_ranks = .ok equivalent_ranks) ∧
    ((∃ (i : Nat) (c : Int), coefs[i]? = some c ∧ c ≠ 0 ∧ c ≠ 1) →
      coefficientTest w it.2 coefs equivalent_ranks = .ok equivalent_ranks) := by
  refine ⟨?_, ?_, ?_, ?_⟩
  · intro h1 h2 h3 h4 h5
    rw [equivalentStep_eq]
    simp [h1, h2, h3, h4, h5]
  · intro k d hk hz hd
    have hloop := coefficientLoop_unit coefs k 0 true 0 hk hz
    simp only [Nat.zero_add] at hloop
    simp [coefficientTest, hloop, hd, mapAt, bind, Except.bind, pure, Except.pure]
  · rintro ⟨a, b, hab, ha, hb⟩
    have hloop : (coefficientLoop coefs 0 (true, false, 0)).1 = false := by
      rcases Nat.lt_or_gt_of_ne hab with h | h
      · exact coefficientLoop_two_ones coefs a b 0 _ h ha hb
      · exact coefficientLoop_two_ones coefs b a 0 _ h hb ha
    simp [coefficientTest, hloop]
  · rintro ⟨i, c, hc, h0, h1⟩
    have hloop : (coefficientLoop coefs 0 (true, false, 0)).1 = false :=
      coefficientLoop_other coefs 0 _ c (List.getElem?_mem hc) h0 h1
    simp [coefficientTest, hloop]

theorem coefficientTest_unit_coefficient_witness :
    equivalentStep matrixIsl pipeline 0 [100] ([[1]], 1) = coefficientTest pipeline 1 [1] [100] ∧
      coefficientTest pipeline 1 [1] [100] = .ok (setInsert 101 [100]) ∧
      coefficientTest pipeline 1 [1, 1] [100] = .ok [100] ∧
      coefficientTest pipeline 1 [2] [100] = .ok [100] :=
  ⟨(coefficientTest_unit_coefficient matrixIsl pipeline 0 [100] ([[1]], 1) [1]).1
      (by decide) (by decide) (by decide) (by decide) (by decide),
    (coefficientTest_unit_coefficient matrixIsl pipeline 0 [100] ([[1]], 1) [1]).2.1 0 101
      (by decide)
      (by
        intro j c hj hc
        cases j with
        | zero => exact absurd rfl hj
        | succ j => simp at hc)
      (by decide),
    (coefficientTest_unit_coefficient matrixIsl pipeline 0 [100] ([[1]], 1) [1, 1]).2.2.1
      ⟨0, 1, by decide, by decide, by decide⟩,
    (coefficientTest_unit_coefficient matrixIsl pipeline 0 [100] ([[1]], 1) [2]).2.2.2
      ⟨0, 2, by decide, by decide, by decide⟩⟩

/-- C14, the code at the failing input: when every coefficient is 0 the loop
leaves `has_equivalent_dim` true and `potential_equivalent_dim` 0 (nothing tests
`found_potential_equivalent_dim`), so the dimension at index 0 of the other
einsum is added.  In the workload `broadcast` einsum 1 reads element 0 of
tensor 11 whatever its dimension 101 is: the projected relation is the constant
`{ [j] -> [0] }` with the single coefficient 0, dimension 101 is not relevant to
tensor 11, and `EquivalentDimensions(0, 100)` still returns `{100, 101}`. -/
theorem coefficientTest_constant_adds_first_dimension :
    (∀ n, coefficientLoop (List.replicate n 0) 0 (true, false, 0) = (true, false, 0)) ∧
      GetProjectedIterations matrixIsl broadcast 0 1 = .ok [([[0]], 1)] ∧
      matrixIsl.aff_coefficients (projectToDim matrixIsl 0 [[0]]) = [0] ∧
      coefficientTest broadcast 1 [0] [100] = .ok [100, 101] ∧
      EinsumDimIsRelevantToTensor matrixIsl broadcast 1 101 11 = .ok false ∧
      EquivalentDimensions matrixIsl broadcast [] 0 100
        = .ok ([100, 101], [(101, [100, 101]), (100, [100, 101])]) :=
  ⟨fun n => coefficientLoop_zeros _ _ _ (fun c hc => (List.mem_replicate.1 hc).2),
    by decide, by decide, by decide, by decide, by decide⟩

/-- C15 (constant offsets): the coefficient test reads the coefficients of the
input dimensions of the affine function and never its constant term, so two
affine functions with equal coefficients have the same outcome whatever their
constants are; `j = i + 1` (coefficient 1, constant 1) is accepted with the
same dimension as `j = i` (coefficient 1, constant 0). -/
theorem coefficientTest_ignores_constant (w : FusedWorkload M S) (other_einsum : EinsumId)
    (equivalent_ranks : List DimensionId) (f g : Aff)
    (h : f.coefficients = g.coefficients) :
    coefficientTest w other_einsum f.readCoefficients equivalent_ranks
        = coefficientTest w other_einsum g.readCoefficients equivalent_ranks ∧
      coefficientLoop f.readCoefficients 0 (true, false, 0)
        = coefficientLoop g.readCoefficients 0 (true, false, 0) ∧
      coefficientLoop (Aff.mk [1] 1).readCoefficients 0 (true, false, 0) = (true, true, 0) ∧
      coefficientLoop (Aff.mk [1] 0).readCoefficients 0 (true, false, 0) = (true, true, 0) := by
  rw [Aff.readCoefficients_eq, Aff.readCoefficients_eq, h]
  exact ⟨rfl, rfl, by decide, by decide⟩

theorem coefficientTest_ignores_constant_witness :
    coefficientTest pipeline 1 (Aff.mk [1] 1).readCoefficients [100]
        = coefficientTest pipeline 1 (Aff.mk [1] 0).readCoefficients [100] ∧
      coefficientTest pipeline 1 (Aff.mk [1] 1).readCoefficients [100] = .ok [100, 101] :=
  ⟨(coefficientTest_ignores_constant pipeline 1 [100] (Aff.mk [1] 1) (Aff.mk [1] 0) rfl).1,
    by decide⟩

/-- C16 (piecewise relations): in `EquivalentDimensions` a projected iteration
relation whose number of basic maps is not 1 adds no dimension to the class,
and neither does one whose projected affine function has a number of pieces
other than 1.  `EinsumDimIsRelevantToTensor` does not look at these numbers:
it returns what it returns for a library reporting any other numbers of basic
maps and of pieces, and it is true exactly when some relation of the whole
list of projected accesses involves the dimension. -/
theorem piecewise_excluded_from_equivalence_only (lib : Isl M S) (w : FusedWorkload M S)
    (dim_idx : Nat) (equivalent_ranks : List DimensionId) (it : M × EinsumId) :
    (lib.n_basic_map it.1 ≠ 1 →
      equivalentStep lib w dim_idx equivalent_ranks it = .ok equivalent_ranks) ∧
    (lib.pw_aff_n_piece (projectToDim lib dim_idx it.1) ≠ 1 →
      lib.multi_pw_aff_size (projectToDim lib dim_idx it.1) = 1 →
      equivalentStep lib w dim_idx equivalent_ranks it = .ok equivalent_ranks) ∧
    (lib.pw_aff_n_piece (projectToDim lib dim_idx it.1) ≠ 1 →
      ∀ ranks, equivalentStep lib w dim_idx equivalent_ranks it = .ok ranks →
        ranks = equivalent_ranks) ∧
    (∀ (n_basic_map pw_aff_n_piece : M → Nat) einsum einsum_dim dspace,
      EinsumDimIsRelevantToTensor
          { lib with n_basic_map := n_basic_map, pw_aff_n_piece := pw_aff_n_piece }
          w einsum einsum_dim dspace
        = EinsumDimIsRelevantToTensor lib w einsum einsum_dim dspace) ∧
    (∀ einsum einsum_dim dspace idx accesses_list,
      w.EinsumDimToIdx einsum einsum_dim = some idx →
      GetProjectedAccesses lib w einsum dspace = .ok accesses_list →
      (EinsumDimIsRelevantToTensor lib w einsum einsum_dim dspace = .ok true ↔
        ∃ a ∈ accesses_list, lib.involves_dims_in a idx = true)) := by
  refine ⟨?_, ?_, ?_, ?_, ?_⟩
  · intro h
    rw [equivalentStep_eq]
    simp [h]
  · intro h1 h2
    rw [equivalentStep_eq]
    by_cases hb : lib.n_basic_map it.1 = 1
    · by_cases hs : lib.is_single_valued (projectToDim lib dim_idx it.1) = false
      · simp [hb, hs]
      · simp [hb, hs, h1, h2]
    · simp [hb]
  · intro h1 ranks hr
    rw [equivalentStep_eq] at hr
    by_cases hb : lib.n_basic_map it.1 = 1
    · by_cases hs : lib.is_single_valued (projectToDim lib dim_idx it.1) = false
      · simp [hb, hs] at hr
        exact hr.symm
      · by_cases hz : lib.multi_pw_aff_size (projectToDim lib dim_idx it.1) = 1
        · simp [hb, hs, h1, hz] at hr
          exact hr.symm
        · simp [hb, hs, hz] at hr
    · simp [hb] at hr
      exact hr.symm
  · intro n_basic_map pw_aff_n_piece einsum einsum_dim dspace
    have hacc := GetProjectedAccesses_congr lib
      { lib with n_basic_map := n_basic_map, pw_aff_n_piece := pw_aff_n_piece } w rfl rfl
      einsum dspace
    simp only [EinsumDimIsRelevantToTensor, hacc]
  · intro einsum einsum_dim dspace idx accesses_list hidx hacc
    exact EinsumDimIsRelevantToTensor_iff lib w einsum einsum_dim dspace idx accesses_list
      hidx hacc

theorem piecewise_excluded_from_equivalence_only_witness :
    equivalentStep (piecewiseIsl 2 1) pipeline 0 [100] ([[1]], 1) = .ok [100] ∧
      equivalentStep (piecewiseIsl 1 2) pipeline 0 [100] ([[1]], 1) = .ok [100] ∧
      (EinsumDimIsRelevantToTensor (piecewiseIsl 2 2) pipeline 1 101 11 = .ok true ↔
        ∃ a ∈ [[[(1 : Int)]]], (piecewiseIsl 2 2).involves_dims_in a 0 = true) :=
  ⟨(piecewise_excluded_from_equivalence_only (piecewiseIsl 2 1) pipeline 0 [100]
      ([[1]], 1)).1 (by decide),
    (piecewise_excluded_from_equivalence_only (piecewiseIsl 1 2) pipeline 0 [100]
      ([[1]], 1)).2.1 (by decide) (by decide),
    (piecewise_excluded_from_equivalence_only (piecewiseIsl 2 2) pipeline 0 [100]
      ([[1]], 1)).2.2.2.2 1 101 11 0 [[[1]]] (by decide) (by decide)⟩

/-- C17 (equivalence-class propagation): after a call
`EquivalentDimensions(einsum, einsum_dim)` that finds no cache entry returns
the class `C`, the cache maps `einsum_dim` and every member of `C` to `C`, and
a query that follows directly, for any member of `C` and any einsum argument,
returns `C` from the cache, which it leaves as it is. -/
theorem EquivalentDimensions_class_shared (lib : Isl M S) (w : FusedWorkload M S)
    (memo memo' : EquivalentDimMemo) (einsum : EinsumId) (einsum_dim : DimensionId)
    (C : List DimensionId) (hfresh : memo.lookup einsum_dim = none)
    (h : EquivalentDimensions lib w memo einsum einsum_dim = .ok (C, memo')) :
    memo'.lookup einsum_dim = some C ∧ (∀ m ∈ C, memo'.lookup m = some C) ∧
      (∀ m ∈ C, ∀ stage, EquivalentDimensions lib w memo' stage m = .ok (C, memo')) ∧
      (∀ stage, EquivalentDimensions lib w memo' stage einsum_dim = .ok (C, memo')) := by
  obtain ⟨h1, h2⟩ := EquivalentDimensions_propagates lib w memo memo' einsum einsum_dim C hfresh h
  refine ⟨h1, h2, ?_, ?_⟩
  · intro m hm stage
    unfold EquivalentDimensions
    rw [h2 m hm]
  · intro stage
    unfold EquivalentDimensions
    rw [h1]

theorem EquivalentDimensions_class_shared_witness :
    List.lookup 100 [(101, [100, 101]), (100, [100, 101])] = some [100, 101] ∧
      (∀ m ∈ [100, 101], List.lookup m [(101, [100, 101]), (100, [100, 101])]
        = some [100, 101]) ∧
      (∀ m ∈ [100, 101], ∀ stage,
        EquivalentDimensions matrixIsl pipeline [(101, [100, 101]), (100, [100, 101])] stage m
          = .ok ([100, 101], [(101, [100, 101]), (100, [100, 101])])) ∧
      (∀ stage,
        EquivalentDimensions matrixIsl pipeline [(101, [100, 101]), (100, [100, 101])] stage 100
          = .ok ([100, 101], [(101, [100, 101]), (100, [100, 101])])) :=
  EquivalentDimensions_class_shared matrixIsl pipeline []
    [(101, [100, 101]), (100, [100, 101])] 0 100 [100, 101] rfl (by decide)

/-- C18 (termination of FindChains): for every workload, cyclic or not, and
every `src` and `dst`, the `while` loop of `FindEinsumDependencyChain` has an
empty stack after `searchBound w` iterations and its state does not change
afterwards; every path on the stack, at every iteration, repeats no einsum. -/
theorem FindEinsumDependencyChain_terminates (w : FusedWorkload M S) (src dst : EinsumId) :
    (searchLoop w dst (searchBound w) (searchInit src dst)).1 = [] ∧
      (∀ n, searchBound w ≤ n →
        searchLoop w dst n (searchInit src dst)
          = searchLoop w dst (searchBound w) (searchInit src dst)) ∧
      (∀ n, ∀ e ∈ (searchLoop w dst n (searchInit src dst)).1, e.2.Nodup) := by
  have hnil := searchLoop_stack_nil w dst _ _ (stackWeight_init_le w src dst)
  refine ⟨hnil, ?_, ?_⟩
  · intro n hn
    obtain ⟨k, rfl⟩ := Nat.exists_eq_add_of_le hn
    exact searchLoop_stable w dst (searchBound w) (searchInit src dst) hnil k
  · intro n
    have key := searchLoop_invariant w dst (fun e => e.2.Nodup) (fun _ => True)
      (by
        intro cur p n' h1 _ _ hn2
        rw [List.nodup_append]
        exact ⟨h1, List.nodup_singleton n', by
          intro a ha hb
          simp only [List.mem_singleton] at hb
          subst hb
          exact hn2 ha⟩)
      (fun _ _ _ _ => trivial) n (searchInit src dst)
      (by
        intro e he
        simp only [searchInit, List.mem_singleton] at he
        subst he
        exact List.nodup_singleton src)
      (fun _ _ => trivial)
    exact key.1

/-- C19, counterexample: the workload `twoOutputs` lists einsum 0 and its
dimension tables are sound, yet the query `EquivalentDimensions(0, 100)` on the
fresh cache returns no set: projecting to einsum 1 looks up the access of
einsum 1 to tensor 10, the first tensor einsum 0 writes, which einsum 1 does not
read.  The query fails in the same way on the two-einsum cycle. -/
theorem EquivalentDimensions_may_fail :
    DimTablesSound matrixIsl twoOutputs ∧ (0, "A") ∈ twoOutputs.EinsumIdToName ∧
      FindEinsumDependencyChain twoOutputs 0 1 = [[0, 1]] ∧
      twoOutputs.Accesses 1 10 = .error .undefined_access ∧
      EquivalentDimensions matrixIsl twoOutputs [] 0 100 = .error .undefined_access ∧
      EquivalentDimensions matrixIsl cyclic [] 0 100 = .error .undefined_access :=
  ⟨DimTablesSound_of_pipeline_tables twoOutputs rfl rfl rfl rfl, by decide, by decide,
    by decide, by decide, by decide⟩

/-- C19 as amended: provided every dimension with an index in
`EinsumDimToIdx(einsum)` belongs to an einsum listed in `EinsumIdToName` and
`EinsumIdxToDim(einsum)` inverts `EinsumDimToIdx(einsum)` (with the identity
relation projecting to a single unit coefficient at the dimension's own
index), every query `EquivalentDimensions(einsum, einsum_dim)` that finds no
cache entry and returns, returns a set containing `einsum_dim` itself, and in
every cache state reachable by queries each key of the equivalence cache is a
member of the set stored under it. -/
theorem EquivalentDimensions_key_in_class (lib : Isl M S) (w : FusedWorkload M S)
    (hw : DimTablesSound lib w) :
    (∀ (memo memo' : EquivalentDimMemo) einsum einsum_dim C,
        memo.lookup einsum_dim = none →
        EquivalentDimensions lib w memo einsum einsum_dim = .ok (C, memo') →
        einsum_dim ∈ C) ∧
      (∀ memo, EquivalentMemoReachable lib w memo →
        ∀ k v, memo.lookup k = some v → k ∈ v) :=
  ⟨fun memo memo' einsum einsum_dim C hfresh h =>
      EquivalentDimensions_self_mem lib w hw memo memo' einsum einsum_dim C hfresh h,
    fun memo hm => EquivalentMemoReachable_key_mem lib w hw memo hm⟩

theorem EquivalentDimensions_key_in_class_witness :
    100 ∈ [100, 101] ∧
      (∀ k v, List.lookup k [(101, [100, 101]), (100, [100, 101])] = some v → k ∈ v) :=
  ⟨(EquivalentDimensions_key_in_class matrixIsl pipeline
      (DimTablesSound_of_pipeline_tables pipeline rfl rfl rfl rfl)).1 []
      [(101, [100, 101]), (100, [100, 101])] 0 100 [100, 101] rfl (by decide),
    (EquivalentDimensions_key_in_class matrixIsl pipeline
      (DimTablesSound_of_pipeline_tables pipeline rfl rfl rfl rfl)).2
      [(101, [100, 101]), (100, [100, 101])]
      (EquivalentMemoReachable.query [] [(101, [100, 101]), (100, [100, 101])] 0 100
        [100, 101] EquivalentMemoReachable.fresh (by decide))⟩

/-- C20 (transitive relevance collapses to direct relevance): when no
producer-consumer path leads from the einsum back to itself, then for every
data space the einsum reads or writes `GetProjectedAccesses(einsum, dspace)`
is the one-element list `[Accesses(einsum, dspace)]`,
`EinsumDimIsRelevantToTensor` agrees with `EinsumDimIsDirectlyRelevantToTensor`
on every dimension, and `EinsumDimsRelevantToTensor(einsum, dspace)` returns
what `EinsumDimsDirectlyRelevantToTensor(einsum, dspace)` returns, in all
cache states the analyzer can reach. -/
theorem relevance_is_direct_without_cycle (lib : Isl M S) (w : FusedWorkload M S)
    (einsum : EinsumId) (dspace : DataSpaceId)
    (hacyclic : ¬ Relation.TransGen (DependsOn w) einsum einsum)
    (htouch : dspace ∈ w.TensorsReadByEinsum einsum ∨ dspace ∈ w.TensorsWrittenByEinsum einsum) :
    w.Accesses einsum dspace = .ok (w.access_relation einsum dspace) ∧
      GetProjectedAccesses lib w einsum dspace = .ok [w.access_relation einsum dspace] ∧
      (∀ einsum_dim, EinsumDimIsRelevantToTensor lib w einsum einsum_dim dspace
        = EinsumDimIsDirectlyRelevantToTensor lib w einsum einsum_dim dspace) ∧
      (∀ relevant_memo direct_memo, RelevantMemoReachable lib w relevant_memo →
        DirectMemoReachable lib w direct_memo →
        (EinsumDimsRelevantToTensor lib w relevant_memo einsum dspace).map Prod.fst
          = (EinsumDimsDirectlyRelevantToTensor lib w direct_memo einsum dspace).map Prod.fst) := by
  have hchains := FindEinsumDependencyChain_self_of_acyclic w einsum hacyclic
  have hdim := fun einsum_dim =>
    EinsumDimIsRelevantToTensor_eq_direct lib w einsum einsum_dim dspace hchains htouch
  refine ⟨by simp [FusedWorkload.Accesses, htouch],
    GetProjectedAccesses_of_trivial_chain lib w einsum dspace hchains htouch, hdim, ?_⟩
  intro relevant_memo direct_memo hr hd
  have h1 := memoizedDims_outcome (relevantDims lib w) relevant_memo (einsum, dspace)
    (RelevantMemoReachable_consistent lib w relevant_memo hr)
  have h2 := memoizedDims_outcome (directlyRelevantDims lib w) direct_memo (einsum, dspace)
    (DirectMemoReachable_consistent lib w direct_memo hd)
  have h3 : relevantDims lib w (einsum, dspace) = directlyRelevantDims lib w (einsum, dspace) := by
    unfold relevantDims directlyRelevantDims
    congr 1
    funext einsum_dim
    exact hdim einsum_dim
  exact h1.trans (h3.trans h2.symm)

theorem relevance_is_direct_without_cycle_witness :
    pipeline.Accesses 1 11 = .ok (pipeline.access_relation 1 11) ∧
      GetProjectedAccesses matrixIsl pipeline 1 11 = .ok [pipeline.access_relation 1 11] ∧
      (∀ einsum_dim, EinsumDimIsRelevantToTensor matrixIsl pipeline 1 einsum_dim 11
        = EinsumDimIsDirectlyRelevantToTensor matrixIsl pipeline 1 einsum_dim 11) ∧
      (∀ relevant_memo direct_memo, RelevantMemoReachable matrixIsl pipeline relevant_memo →
        DirectMemoReachable matrixIsl pipeline direct_memo →
        (EinsumDimsRelevantToTensor matrixIsl pipeline relevant_memo 1 11).map Prod.fst
          = (EinsumDimsDirectlyRelevantToTensor matrixIsl pipeline direct_memo 1 11).map
              Prod.fst) :=
  relevance_is_direct_without_cycle matrixIsl pipeline 1 11
    (by
      intro h
      obtain ⟨b, ⟨T, hT, hb⟩, _⟩ := Relation.TransGen.head'_iff.1 h
      have hw : pipeline.TensorsWrittenByEinsum 1 = [12] := by decide
      rw [hw, List.mem_singleton] at hT
      subst hT
      have hr : pipeline.ReaderEinsums 12 = [] := by decide
      rw [hr] at hb
      exact List.not_mem_nil _ hb)
    (by decide)

/-! ## Access lookups of the iteration projector -/

/-- C21: when every einsum of the table writes exactly one tensor, an einsum
listed as a reader of a tensor has it in its read set, and `src ≠ dst`, every
`Accesses(e, t)` lookup that `GetProjectedIterations(src, dst)` makes while it
walks a chain of `FindEinsumDependencyChain(src, dst)` is for a tensor `t` that
`e` reads or writes and returns the access relation; the call returns its list
of pairs, so it does not fail with an undefined access. -/
theorem GetProjectedIterations_lookups_defined (lib : Isl M S) (w : FusedWorkload M S)
    (src dst : EinsumId) (hne : src ≠ dst)
    (hone : ∀ e ts, (e, ts) ∈ w.written_tensors → ∃ T, ts = [T])
    (hreaders : ∀ T e, e ∈ w.ReaderEinsums T → T ∈ w.TensorsReadByEinsum e) :
    (∀ chain ∈ FindEinsumDependencyChain w src dst,
      ∀ p ∈ walkLookups w src dst chain 0,
        (p.2 ∈ w.TensorsReadByEinsum p.1 ∨ p.2 ∈ w.TensorsWrittenByEinsum p.1) ∧
        w.Accesses p.1 p.2 = .ok (w.access_relation p.1 p.2)) ∧
    (∃ projections, GetProjectedIterations lib w src dst = .ok projections) ∧
    GetProjectedIterations lib w src dst ≠ .error .undefined_access := by
  have hret : ∃ projections, GetProjectedIterations lib w src dst = .ok projections :=
    foldlM_projectChain_defined lib w src _ []
      (fun chain hchain acc =>
        (projectChain_defined lib w src dst hne hone hreaders chain hchain acc).2)
  refine ⟨?_, hret, ?_⟩
  · intro chain hchain p hp
    have htouch := (projectChain_defined lib w src dst hne hone hreaders chain hchain []).1 p hp
    refine ⟨htouch, ?_⟩
    unfold FusedWorkload.Accesses
    rw [if_pos htouch]
  · obtain ⟨projections, hp⟩ := hret
    rw [hp]
    exact fun h => Except.noConfusion h

/-- On the three-stage pipeline the projector from einsum 0 to einsum 2 walks
the chain `0, 1, 2`, looks up four accesses and returns one pair. -/
theorem GetProjectedIterations_lookups_defined_witness :
    FindEinsumDependencyChain threeStage 0 2 = [[0, 1, 2]] ∧
    walkLookups threeStage 0 2 [0, 1, 2] 0 = [(0, 11), (1, 11), (1, 12), (2, 12)] ∧
    GetProjectedIterations matrixIsl threeStage 0 2 = .ok [([[2]], 2)] ∧
    ((∀ chain ∈ FindEinsumDependencyChain threeStage 0 2,
      ∀ p ∈ walkLookups threeStage 0 2 chain 0,
        (p.2 ∈ threeStage.TensorsReadByEinsum p.1 ∨ p.2 ∈ threeStage.TensorsWrittenByEinsum p.1) ∧
        threeStage.Accesses p.1 p.2 = .ok (threeStage.access_relation p.1 p.2)) ∧
    (∃ projections, GetProjectedIterations matrixIsl threeStage 0 2 = .ok projections) ∧
    GetProjectedIterations matrixIsl threeStage 0 2 ≠ .error .undefined_access) :=
  ⟨by decide, by decide, by decide,
    GetProjectedIterations_lookups_defined matrixIsl threeStage 0 2 (by decide)
      (by
        intro e ts h
        simp only [threeStage, List.mem_cons, Prod.mk.injEq, List.mem_singleton,
          List.not_mem_nil, or_false] at h
        rcases h with ⟨_, rfl⟩ | ⟨_, rfl⟩ | ⟨_, rfl⟩ <;> exact ⟨_, rfl⟩)
      (by
        intro T e h
        by_cases h11 : T = 11
        · subst h11
          have hr : threeStage.ReaderEinsums 11 = [1] := rfl
          rw [hr, List.mem_singleton] at h
          subst h
          decide
        · by_cases h12 : T = 12
          · subst h12
            have hr : threeStage.ReaderEinsums 12 = [2] := rfl
            rw [hr, List.mem_singleton] at h
            subst h
            decide
          · by_cases h13 : T = 13
            · subst h13
              have hr : threeStage.ReaderEinsums 13 = [] := rfl
              rw [hr] at h
              exact absurd h (List.not_mem_nil e)
            · have e11 : (T == 11) = false := beq_eq_false_iff_ne.2 h11
              have e12 : (T == 12) = false := beq_eq_false_iff_ne.2 h12
              have e13 : (T == 13) = false := beq_eq_false_iff_ne.2 h13
              simp only [FusedWorkload.ReaderEinsums, threeStage, List.lookup, e11, e12, e13,
                Option.getD_none] at h
              exact absurd h (List.not_mem_nil e))⟩

end problem
